import Mathlib

/-!
Shallow embedding of the truth-tables program (Rust sources:
`src/propositions.rs`, `src/expressions.rs`, `src/truth_table.rs`).

Strings are modelled as `List Char` (Rust `&str` / `String`; all
program-relevant inputs are ASCII, where byte indices and char indices
coincide).  Machine bytes (`u8`) are modelled as `Nat`; every packed
permutation value produced by the program is `< 16`, so no wrap-around
arises (noted where relevant).  Rust panics are modelled as `Except Err`
errors: `Err.user` for the user-facing `panic!` messages and
`Err.internal` for the `unreachable!`/`expect` messages that the source
marks with an `[INTERNAL ERROR]` prefix.
-/

set_option linter.unusedVariables false

/-- Error channel distinguishing user-facing panics from the
`[INTERNAL ERROR]` panics of the source. -/
inductive Err where
  | user (msg : String) : Err
  | internal (msg : String) : Err
deriving DecidableEq, Repr

def Err.isUser : Err → Bool
  | .user _ => true
  | .internal _ => false

def Err.isInternal : Err → Bool
  | .user _ => false
  | .internal _ => true

instance {ε α : Type} [DecidableEq ε] [DecidableEq α] : DecidableEq (Except ε α) := by
  intro a b
  cases a <;> cases b
  case ok.ok x y => exact decidable_of_iff (x = y) (by simp)
  case error.error x y => exact decidable_of_iff (x = y) (by simp)
  all_goals exact isFalse (by simp)

/-- Is an `Except Err` result a user-facing error? -/
def isUserErr {α : Type} : Except Err α → Bool
  | .error e => e.isUser
  | .ok _ => false

/-- Is an `Except Err` result an internal-invariant error? -/
def isInternalErr {α : Type} : Except Err α → Bool
  | .error e => e.isInternal
  | .ok _ => false

/-- `src/propositions.rs`: the four allowed proposition letters. -/
inductive PropositionIdentifier where
  | A | B | C | D
deriving DecidableEq, Repr, Fintype

namespace PropositionIdentifier

/-- `PropositionIdentifier::mask` (`src/propositions.rs` lines 20-27):
the masked value of the proposition for a permutation, in 0bABCD format
(A is bit 3 of the low nibble, D is bit 0). -/
def mask : PropositionIdentifier → Nat → Bool
  | .A, permutation => Nat.land permutation 8 != 0
  | .B, permutation => Nat.land permutation 4 != 0
  | .C, permutation => Nat.land permutation 2 != 0
  | .D, permutation => Nat.land permutation 1 != 0

/-- `PropositionIdentifier::from_char` (lines 30-38); the catch-all arm
is an `unreachable!` internal panic, modelled by `none`. -/
def from_char : Char → Option PropositionIdentifier
  | 'a' => some .A
  | 'A' => some .A
  | 'b' => some .B
  | 'B' => some .B
  | 'c' => some .C
  | 'C' => some .C
  | 'd' => some .D
  | 'D' => some .D
  | _ => none

/-- `PropositionIdentifier::from_int` (lines 41-49); the catch-all arm is
an `unreachable!` panic carrying the `[INTERNAL ERROR]` prefix. -/
def from_int : Nat → Except Err PropositionIdentifier
  | 0 => .ok .A
  | 1 => .ok .B
  | 2 => .ok .C
  | 3 => .ok .D
  | _ => .error (.internal "Invalid proposition integer")

/-- `PropositionIdentifier::to_char` (lines 52-59). -/
def to_char : PropositionIdentifier → Char
  | .A => 'A'
  | .B => 'B'
  | .C => 'C'
  | .D => 'D'

end PropositionIdentifier

/-- `src/propositions.rs`: `PropositionTable`, a map from identifier to
optional boolean value.  The Rust `HashMap` keyed by the four-element
identifier enum is modelled by four optional fields: `none` means the
key is absent, `some v` means the key is present with value `v`
(where `v : Option Bool` is `none` while the proposition is unset). -/
structure PropositionTable where
  entryA : Option (Option Bool)
  entryB : Option (Option Bool)
  entryC : Option (Option Bool)
  entryD : Option (Option Bool)
deriving DecidableEq, Repr

namespace PropositionTable

def empty : PropositionTable := ⟨none, none, none, none⟩

def getEntry (t : PropositionTable) : PropositionIdentifier → Option (Option Bool)
  | .A => t.entryA
  | .B => t.entryB
  | .C => t.entryC
  | .D => t.entryD

/-- `HashMap::insert(p, None)` as used by `from_expression_str`. -/
def insertUnset (t : PropositionTable) : PropositionIdentifier → PropositionTable
  | .A => { t with entryA := some none }
  | .B => { t with entryB := some none }
  | .C => { t with entryC := some none }
  | .D => { t with entryD := some none }

/-- `HashMap::contains_key`. -/
def containsKey (t : PropositionTable) (p : PropositionIdentifier) : Bool :=
  (t.getEntry p).isSome

/-- `PropositionTable::from_expression_str` (`src/propositions.rs`
lines 68-81; called `from_str` at its use site in `expressions.rs`):
insert an unset entry for every proposition letter of the string. -/
def insertLetter (t : PropositionTable) (c : Char) : PropositionTable :=
  match PropositionIdentifier.from_char c with
  | some p => t.insertUnset p
  | none => t

def fromExpressionStr (s : List Char) : PropositionTable :=
  s.foldl insertLetter empty

/-- `PropositionTable::get_value` (lines 84-86):
`get(identifier).copied().flatten()`. -/
def get_value (t : PropositionTable) (p : PropositionIdentifier) : Option Bool :=
  (t.getEntry p).bind id

/-- `PropositionTable::set_all` (lines 89-93): every present key gets the
masked value of the given permutation. -/
def set_all (t : PropositionTable) (values : Nat) : PropositionTable where
  entryA := t.entryA.map fun _ => some (PropositionIdentifier.mask .A values)
  entryB := t.entryB.map fun _ => some (PropositionIdentifier.mask .B values)
  entryC := t.entryC.map fun _ => some (PropositionIdentifier.mask .C values)
  entryD := t.entryD.map fun _ => some (PropositionIdentifier.mask .D values)

/-- `PropositionTable::count` (lines 96-98): number of present keys. -/
def count (t : PropositionTable) : Nat :=
  (if t.entryA.isSome then 1 else 0) + (if t.entryB.isSome then 1 else 0)
    + (if t.entryC.isSome then 1 else 0) + (if t.entryD.isSome then 1 else 0)

/-- `PropositionTable::validate` (lines 102-121): the key set must be a
contiguous prefix of A, B, C, D. -/
def validate (t : PropositionTable) : Bool :=
  match t.count with
  | 1 => t.containsKey .A
  | 2 => t.containsKey .A && t.containsKey .B
  | 3 => t.containsKey .A && t.containsKey .B && t.containsKey .C
  | 4 => t.containsKey .A && t.containsKey .B && t.containsKey .C && t.containsKey .D
  | _ => false

end PropositionTable

/-- `src/expressions.rs`: a logical operator. -/
inductive Operator where
  | and | or
deriving DecidableEq, Repr

mutual
/-- `src/expressions.rs` lines 7-11: a logical expression: interleaved
elements and operators plus the node's own proposition table. -/
inductive Expression where
  | mk : ElemList → List Operator → PropositionTable → Expression

/-- The element list (`Vec<ExpressionElement>`), as a mutual inductive so
that structural recursion over the tree stays elementary. -/
inductive ElemList where
  | nil : ElemList
  | cons : ExpressionElement → ElemList → ElemList

/-- `src/expressions.rs` lines 15-18: an element with its negation flag. -/
inductive ExpressionElement where
  | mk : ExpressionElementToken → Bool → ExpressionElement

/-- `src/expressions.rs` lines 22-25: proposition or subexpression. -/
inductive ExpressionElementToken where
  | proposition : PropositionIdentifier → ExpressionElementToken
  | subexpression : Expression → ExpressionElementToken
end

namespace ElemList

def length : ElemList → Nat
  | .nil => 0
  | .cons _ rest => 1 + rest.length

def toList : ElemList → List ExpressionElement
  | .nil => []
  | .cons e rest => e :: rest.toList

/-- `Vec::push` on the element list. -/
def append : ElemList → ExpressionElement → ElemList
  | .nil, e => .cons e .nil
  | .cons x rest, e => .cons x (rest.append e)

end ElemList

def Expression.elements : Expression → ElemList
  | .mk es _ _ => es

def Expression.operators : Expression → List Operator
  | .mk _ ops _ => ops

def Expression.propositions : Expression → PropositionTable
  | .mk _ _ t => t

def ExpressionElement.token : ExpressionElement → ExpressionElementToken
  | .mk tok _ => tok

def ExpressionElement.negation : ExpressionElement → Bool
  | .mk _ n => n

/-- Depth-counting loop of `get_subexpression` (`src/expressions.rs`
lines 197-215): depth starts at 1 for the already-consumed opener;
characters are emitted while the depth stays positive. -/
def subexprAux : Nat → List Char → List Char
  | _, [] => []
  | depth, c :: cs =>
    let depth' := if c = '(' then depth + 1 else if c = ')' then depth - 1 else depth
    if depth' > 0 then c :: subexprAux depth' cs else []

/-- `get_subexpression` (`src/expressions.rs` lines 191-218): substring
between the first parenthesis pair; calling it on a string that does not
start with `(` is the `unreachable!` internal panic. -/
def get_subexpression : List Char → Except Err (List Char)
  | [] => .error (.internal "Subexpression must start with an open parenthesis")
  | c :: cs =>
    if c = '(' then .ok (subexprAux 1 cs)
    else .error (.internal "Subexpression must start with an open parenthesis")

/-- The character classes of the `match` in `Expression::parse`
(`src/expressions.rs` lines 83-113): proposition letter, opening
parenthesis, closing parenthesis, negation marker (`!` or `/`),
conjunction marker (`&` or `*`), disjunction marker (`|` or `+`),
ignored whitespace (space or newline), or an invalid character. -/
inductive CharKind where
  | prop (p : PropositionIdentifier)
  | paren
  | close
  | negmark
  | conj
  | disj
  | ws
  | invalid
deriving DecidableEq, Repr

/-- Classify a character exactly as the `match` arms of
`Expression::parse` do (the arms are mutually exclusive, so the order
is immaterial). -/
def classifyChar (c : Char) : CharKind :=
  match PropositionIdentifier.from_char c with
  | some p => .prop p
  | none =>
    if c = '(' then .paren
    else if c = ')' then .close
    else if c = '!' ∨ c = '/' then .negmark
    else if c = '&' ∨ c = '*' then .conj
    else if c = '|' ∨ c = '+' then .disj
    else if c = ' ' ∨ c = '\n' then .ws
    else .invalid

mutual
/-- `Expression::parse` (`src/expressions.rs` lines 66-122), with a fuel
argument making the recursion structural; `Expression.parse` below
instantiates the fuel.  Builds the proposition table from the string,
optionally validates contiguity, scans the characters, and checks the
element/operator count. -/
def parseFuel : Nat → List Char → Bool → Except Err Expression
  | 0, _, _ => .error (.internal "out of fuel")
  | fuel + 1, expression_string, validate_propositions => do
    let propositions := PropositionTable.fromExpressionStr expression_string
    if validate_propositions ∧ ¬ propositions.validate then
      .error (.user "Expression does not contain purely consecutive proposition identifiers")
    else do
      let pr ← parseLoopFuel fuel expression_string false
      if pr.1.length ≠ pr.2.length + 1 then
        .error (.user "Mismatched proposition and operator count in expression")
      else
        .ok (.mk pr.1 pr.2 propositions)

/-- The character scan of `Expression::parse` (lines 81-114).  The
negation flag is threaded forward; elements and operators are returned
in push order.  On `(` the balanced substring is extracted, recursively
parsed with validation disabled, and the scan skips the substring plus
its closing parenthesis (`input_chars.nth(subexpression.len())`), which
on an unbalanced tail simply exhausts the input.  The dispatch on the
character goes through `classifyChar`, which encodes the source's match
arms one-to-one. -/
def parseLoopFuel : Nat → List Char → Bool → Except Err (ElemList × List Operator)
  | 0, _, _ => .error (.internal "out of fuel")
  | fuel + 1, [], _ => .ok (.nil, [])
  | fuel + 1, c :: tail, is_negated =>
    match classifyChar c with
    | .prop p => do
      let pr ← parseLoopFuel fuel tail false
      .ok (.cons (.mk (.proposition p) is_negated) pr.1, pr.2)
    | .paren => do
      let subexpression ← get_subexpression (c :: tail)
      let sub ← parseFuel fuel subexpression false
      let pr ← parseLoopFuel fuel (tail.drop (subexpression.length + 1)) false
      .ok (.cons (.mk (.subexpression sub) is_negated) pr.1, pr.2)
    | .close => .error (.user "Unmatched closing parenthesis in expression")
    | .negmark => parseLoopFuel fuel tail true
    | .conj => do
      let pr ← parseLoopFuel fuel tail is_negated
      .ok (pr.1, Operator.and :: pr.2)
    | .disj => do
      let pr ← parseLoopFuel fuel tail is_negated
      .ok (pr.1, Operator.or :: pr.2)
    | .ws => parseLoopFuel fuel tail is_negated
    | .invalid => .error (.user "Invalid character in expression")
end

/-- `Expression::parse` with fuel large enough for any input (each unit
of fuel covers at least one consumed character or one nesting level, so
`2 * length + 2` is ample; theorems below quantify over the fuel). -/
def Expression.parse (s : List Char) (validate_propositions : Bool) : Except Err Expression :=
  parseFuel (2 * s.length + 2) s validate_propositions

mutual
/-- `Expression::set_values` (`src/expressions.rs` lines 125-138):
set this node's table from the permutation, then recurse into
subexpression elements. -/
def Expression.set_values : Expression → Nat → Expression
  | .mk es ops props, permutation =>
    .mk (setValuesList es permutation) ops (props.set_all permutation)

def setValuesList : ElemList → Nat → ElemList
  | .nil, _ => .nil
  | .cons el rest, permutation =>
    .cons (setValuesElem el permutation) (setValuesList rest permutation)

def setValuesElem : ExpressionElement → Nat → ExpressionElement
  | .mk (.proposition p) neg, _ => .mk (.proposition p) neg
  | .mk (.subexpression e) neg, permutation =>
    .mk (.subexpression (e.set_values permutation)) neg
end

def applyOperator : Operator → Bool → Bool → Bool
  | .and, a, b => a && b
  | .or, a, b => a || b

mutual
/-- `Expression::evaluate` (`src/expressions.rs` lines 142-157):
evaluate the first element (indexing `elements[0]`, an internal panic on
an empty element list), then fold the (operator, element) pairs
left-to-right.  The Rust `&=`/`|=` always evaluates its right-hand side,
hence the element is evaluated before the combination. -/
def Expression.evaluate : Expression → Option Bool
  | .mk .nil _ _ => none
  | .mk (.cons e0 rest) ops props =>
    match evaluateElement props e0 with
    | none => none
    | some r0 => evalChain props r0 ops rest

/-- The indexed loop of `evaluate`: operator `i` combines with element
`i + 1`; running out of elements is the out-of-bounds panic. -/
def evalChain : PropositionTable → Bool → List Operator → ElemList → Option Bool
  | _, acc, [], _ => some acc
  | _, _, _ :: _, .nil => none
  | props, acc, op :: ops, .cons el els =>
    match evaluateElement props el with
    | none => none
    | some v => evalChain props (applyOperator op acc v) ops els

/-- `Expression::evaluate_element` (lines 161-176): a proposition reads
its current value from the node's own table (`expect` on an unset value
is the internal panic, modelled by `none`); a subexpression evaluates
recursively; the negation flag is applied to the retrieved value. -/
def evaluateElement : PropositionTable → ExpressionElement → Option Bool
  | props, .mk (.proposition p) neg =>
    match props.get_value p with
    | none => none
    | some v => some (if neg then !v else v)
  | _, .mk (.subexpression s) neg =>
    match s.evaluate with
    | none => none
    | some v => some (if neg then !v else v)
end

/-- `Expression::proposition_count` (lines 179-181). -/
def Expression.proposition_count (e : Expression) : Nat :=
  e.propositions.count

/-- `Expression::evaluate_permutation` (lines 184-187): assign values,
then evaluate.  (In Rust this mutates the expression in place; the
updated expression is `e.set_values permutation`.) -/
def Expression.evaluate_permutation (e : Expression) (permutation : Nat) : Option Bool :=
  (e.set_values permutation).evaluate

mutual
/-- The propositions occurring as elements anywhere in the expression
tree (directly or inside nested subexpressions). -/
def Expression.occurs : Expression → List PropositionIdentifier
  | .mk es _ _ => occursList es

def occursList : ElemList → List PropositionIdentifier
  | .nil => []
  | .cons el rest => occursElem el ++ occursList rest

def occursElem : ExpressionElement → List PropositionIdentifier
  | .mk (.proposition p) _ => [p]
  | .mk (.subexpression e) _ => e.occurs
end

/-- `src/truth_table.rs` lines 8-11: a truth table.  The Rust
`BTreeMap<u8, bool>` is modelled as a strictly-ascending association
list (the BTreeMap iterates in ascending key order). -/
structure TruthTable where
  propositions : List PropositionIdentifier
  values_and_results : List (Nat × Bool)
deriving DecidableEq, Repr

/-- `BTreeMap::insert`: keep the list strictly sorted by key,
overwriting an existing key. -/
def btInsert (k : Nat) (v : Bool) : List (Nat × Bool) → List (Nat × Bool)
  | [] => [(k, v)]
  | (k', v') :: rest =>
    if k < k' then (k, v) :: (k', v') :: rest
    else if k = k' then (k, v) :: rest
    else (k', v') :: btInsert k v rest

/-- `get_propositions` (`src/truth_table.rs` lines 153-161): the first
`count` identifiers in canonical order, via `from_int` (whose internal
panic fires when `count > 4`). -/
def get_propositions (proposition_count : Nat) : Except Err (List PropositionIdentifier) :=
  go 0 proposition_count
where
  go (i remaining : Nat) : Except Err (List PropositionIdentifier) :=
    match remaining with
    | 0 => .ok []
    | r + 1 => do
      let p ← PropositionIdentifier.from_int i
      let rest ← go (i + 1) r
      .ok (p :: rest)

/-- Reversal of the 8 bits of a byte (`u8::reverse_bits`). -/
def reverseBits8 (n : Nat) : Nat :=
  (List.range 8).foldl (fun acc j => acc + if n.testBit j then 2 ^ (7 - j) else 0) 0

/-- `get_bit_permutations` (`src/truth_table.rs` lines 215-223): for
`i` in `[0, 2^bits)`, the byte `i` with its bits reversed, shifted right
by 4. -/
def get_bit_permutations (bits : Nat) : List Nat :=
  (List.range (2 ^ bits)).map fun i => reverseBits8 i / 16

/-- `validate_rows` (`src/truth_table.rs` lines 127-149): all characters
binary, first row length within 2..=5, all rows of equal length, checked
in that order.  All three panics are user-facing. -/
def validate_rows (rows : List (List Char)) : Except Err Unit :=
  if rows.any (fun row => row.any fun c => c ≠ '0' ∧ c ≠ '1') then
    .error (.user "Invalid character found in row")
  else
    match rows with
    | [] => .error (.internal "index out of bounds")
    | row0 :: _ =>
      let row_size := row0.length
      if row_size < 2 ∨ row_size > 5 then
        .error (.user "Row size must be between 2 and 5")
      else if rows.any (fun row => row.length ≠ row_size) then
        .error (.user "All rows must be the same length")
      else
        .ok ()

/-- `u8::from_str_radix(_, 2)`: `none` on an empty string or any
non-binary character, otherwise the binary value. -/
def binToNat : List Char → Option Nat
  | [] => none
  | cs => go cs 0
where
  go : List Char → Nat → Option Nat
    | [], acc => some acc
    | c :: rest, acc =>
      if c = '0' then go rest (2 * acc)
      else if c = '1' then go rest (2 * acc + 1)
      else none

/-- `decode_permutation_str` (`src/truth_table.rs` lines 181-190): strip
the result character, interpret the remaining bits in base two, and
shift left by the number of skipped propositions.  An unparsable bit
string is the `unwrap` panic, and a shift amount that would underflow /
exceed the byte width (proposition count 0 or more than 4) is likewise a
panic; both are modelled as internal errors (they are unreachable after
`validate_rows`). -/
def decode_permutation_str (row : List Char) : Except Err Nat :=
  let row' := row.take (row.length - 1)
  let proposition_count := row'.length
  match binToNat row' with
  | none => .error (.internal "unwrap on from_str_radix failure")
  | some v =>
    if proposition_count ≤ 4 then .ok ((v * 2 ^ (4 - proposition_count)) % 256)
    else .error (.internal "shift overflow")

/-- The row loop of `rows_to_value_map`: decode each row into a
permutation, read its last character as the result (`unwrap` on an
empty row is a panic), and insert into the map. -/
def rowsToValueMapAux : List (List Char) → List (Nat × Bool) → Except Err (List (Nat × Bool))
  | [], acc => .ok acc
  | row :: rest, acc => do
    let permutation ← decode_permutation_str row
    match row.getLast? with
    | none => .error (.internal "unwrap on last of empty row")
    | some c => rowsToValueMapAux rest (btInsert permutation (c = '1') acc)

/-- `rows_to_value_map` (`src/truth_table.rs` lines 164-178): validate,
then fold the rows into the BTreeMap. -/
def rows_to_value_map (rows : List (List Char)) : Except Err (List (Nat × Bool)) := do
  validate_rows rows
  rowsToValueMapAux rows []

/-- `TruthTable::parse_rows` (`src/truth_table.rs` lines 49-60) after
the `split(", ")` step (the split never yields an empty list; the empty
case is the `rows[0]` index panic).  Note the source derives the
proposition list from `rows[0].len() - 1` BEFORE `rows_to_value_map`
validates the rows; an empty first row underflows the subtraction,
which is modelled as an internal error. -/
def TruthTable.parse_rows (rows : List (List Char)) : Except Err TruthTable := do
  match rows with
  | [] => throw (Err.internal "index out of bounds")
  | row0 :: _ =>
    if row0.length = 0 then
      throw (Err.internal "attempt to subtract with overflow")
    else do
      let propositions ← get_propositions (row0.length - 1)
      let values_and_results ← rows_to_value_map rows
      return ⟨propositions, values_and_results⟩

/-- Rust `str::split(", ")`: cut at each leftmost non-overlapping
occurrence of the two-character delimiter.  (Defined structurally so it
evaluates inside the kernel; `String.splitOn` agrees on these inputs.) -/
def splitCommaSpace : List Char → List (List Char)
  | [] => [[]]
  | ',' :: ' ' :: rest => [] :: splitCommaSpace rest
  | c :: rest =>
    match splitCommaSpace rest with
    | [] => [[c]]
    | piece :: pieces => (c :: piece) :: pieces

/-- `TruthTable::parse_rows` on the raw user string, including the
`split(", ")`. -/
def TruthTable.parse_rows_str (s : String) : Except Err TruthTable :=
  TruthTable.parse_rows (splitCommaSpace s.toList)

/-- `encode_conjunction` loop body (`src/truth_table.rs` lines 196-207):
for each proposition index below the count, append the letter when its
bit is set, preceded by a separator unless the accumulator is still the
bare opening parenthesis (the `i != proposition_count` conjunct of the
source condition never fails inside the loop but is kept verbatim). -/
def encodeConjAux (permutation proposition_count : Nat) :
    Nat → Nat → List Char → Except Err (List Char)
  | i, remaining, conjunction =>
    match remaining with
    | 0 => .ok (conjunction ++ [ ')'])
    | r + 1 => do
      let proposition ← PropositionIdentifier.from_int i
      let conjunction :=
        if proposition.mask permutation then
          (if conjunction ≠ [ '('] ∧ i ≠ proposition_count
            then conjunction ++ [ ' ', '&', ' '] else conjunction)
            ++ [proposition.to_char]
        else conjunction
      encodeConjAux permutation proposition_count (i + 1) r conjunction

/-- `encode_conjunction` (`src/truth_table.rs` lines 193-212); the loop
counter `i` runs from `0` to `proposition_count`, here phrased with a
structural remaining-steps counter so the kernel can evaluate it. -/
def encode_conjunction (permutation proposition_count : Nat) : Except Err (List Char) :=
  encodeConjAux permutation proposition_count 0 proposition_count [ '(']

/-- The map loop of `to_expression_str`: for every true result, append
a disjunction separator unless the accumulated expression is still
empty, then append the permutation's conjunction. -/
def toExprStrAux (proposition_count : Nat) :
    List (Nat × Bool) → List Char → Except Err (List Char)
  | [], expression => .ok expression
  | pr :: rest, expression =>
    if pr.2 then do
      let conj ← encode_conjunction pr.1 proposition_count
      toExprStrAux proposition_count rest
        ((if expression ≠ [] then expression ++ [ ' ', '|', ' '] else expression) ++ conj)
    else toExprStrAux proposition_count rest expression

/-- `TruthTable::to_expression_str` (`src/truth_table.rs` lines 63-81):
join the conjunction of every true permutation, in ascending map order,
with a disjunction separator inserted before every conjunction except
the first. -/
def TruthTable.to_expression_str (t : TruthTable) : Except Err (List Char) :=
  toExprStrAux t.propositions.length t.values_and_results []

/-- The permutation loop of `from_expression`: `evaluate_permutation`
mutates the expression in place in Rust, so the updated expression
threads through the loop; an evaluation failure is the internal
`expect` panic of `evaluate_element`. -/
def fromExprAux : Expression → List Nat → List (Nat × Bool) → Except Err (List (Nat × Bool))
  | _, [], acc => .ok acc
  | e, permutation :: rest, acc =>
    let e' := e.set_values permutation
    match e'.evaluate with
    | none => .error (.internal "Expression proposition values were not set before evaluation")
    | some result => fromExprAux e' rest (btInsert permutation result acc)

/-- `TruthTable::from_expression` (`src/truth_table.rs` lines 34-46):
enumerate the bit permutations for the expression's proposition count
and record each evaluation result. -/
def TruthTable.from_expression (expression : Expression) : Except Err TruthTable := do
  let propositions ← get_propositions expression.proposition_count
  let values_and_results ←
    fromExprAux expression (get_bit_permutations expression.proposition_count) []
  .ok ⟨propositions, values_and_results⟩

/-- `TruthTable::parse_expression_str` (`src/truth_table.rs`
lines 84-87): parse with validation, then build the table. -/
def TruthTable.parse_expression_str (s : List Char) : Except Err TruthTable := do
  let expression ← Expression.parse s true
  TruthTable.from_expression expression

/-- Observer: when the first element of an expression is a nested
subexpression, return that subexpression's element count and operators. -/
def firstElemSubInfo (e : Expression) : Option (Nat × List Operator) :=
  match e.elements with
  | .cons (.mk (.subexpression s) _) _ => some (s.elements.length, s.operators)
  | _ => none

/-- C1: behaviour of the code at the claimed scenario.  `parse("A & B")`
does yield 2 elements and 1 AND operator, but under the code's bit
packing (`PropositionIdentifier::mask` places A at bit 3 and B at bit 2)
`evaluate_permutation(0b0011)` returns `false`, not `true` as the claim,
the test `test_evaluate_nonrecursive`, and the `set_all` doc comment
(`0b0000DCBA`) state; the `true` result occurs at `0b1100` instead. -/
theorem c1_code_behavior :
    (Expression.parse ("A & B".toList) true).map
        (fun e => (e.elements.length, e.operators, e.evaluate_permutation 3,
          e.evaluate_permutation 0, e.evaluate_permutation 12))
      = .ok (2, [Operator.and], some false, some false, some true) := by decide

/-- C3 counterexample: `parse("(A & B")` does NOT fail: the unmatched
opening parenthesis makes the extraction return the whole remainder,
the skip exhausts the scan, and parsing succeeds with a single
subexpression element and no operators. -/
theorem c3_counterexample :
    (Expression.parse ("(A & B".toList) true).map
        (fun e => (e.elements.length, e.operators.length)) = .ok (1, 0) := by decide

/-- C3 amended: `parse("(A & B")` succeeds, returning one element — a
subexpression equivalent to parsing `"A & B"` (2 elements, 1 AND) — and
no operators; only an unmatched CLOSING parenthesis, as in
`parse("A & B)")`, fails with a user-facing parse error. -/
theorem c3_amended :
    (Expression.parse ("(A & B".toList) true).map
        (fun e => (e.elements.length, e.operators.length, firstElemSubInfo e))
      = .ok (1, 0, some (2, [Operator.and]))
    ∧ isUserErr (Expression.parse ("A & B)".toList) true) = true := by decide

/-- C4: behaviour of the code on malformed rows.  A non-binary
character, an inconsistent length, or a too-short row do abort with the
user-facing row-format panics of `validate_rows`, but a row longer than
5 characters (here `"000000"`) reaches the `[INTERNAL ERROR]` panic of
`PropositionIdentifier::from_int` first, because `parse_rows` calls
`get_propositions(rows[0].len() - 1)` before `validate_rows` runs —
contradicting the claim that malformed user input never reaches an
internal-invariant error. -/
theorem c4_code_behavior :
    isInternalErr (TruthTable.parse_rows_str "000000") = true
    ∧ isUserErr (TruthTable.parse_rows_str "0a1, 011") = true
    ∧ isUserErr (TruthTable.parse_rows_str "01, 011") = true
    ∧ isUserErr (TruthTable.parse_rows_str "0") = true := by decide

/-- C8: contiguity validation applies only at the top level:
`parse("A & C")` with validation enabled fails with the user-facing
validation error; the same string with validation disabled (the nested
context) succeeds; and a top-level parse of `"B & (A & C)"` succeeds
even though its nested subexpression's proposition set is not
contiguous, because the nested call never validates. -/
theorem c8_contiguity_top_level_only :
    isUserErr (Expression.parse ("A & C".toList) true) = true
    ∧ (Expression.parse ("A & C".toList) false).map
        (fun e => (e.elements.length, e.operators)) = .ok (2, [Operator.and])
    ∧ (Expression.parse ("B & (A & C)".toList) true).map
        (fun e => (e.elements.length, firstElemSubInfo ⟨e.elements, [], .empty⟩))
      = .ok (2, none) := by decide

/-- C2 counterexample: the round trip does not preserve the mapping.
For the rows `"000, 011, 101, 110"` (exclusive-or of two propositions),
`parse_rows` records permutation `0b1100 ↦ false`, yet
`to_expression_str` yields `"(B) | (A)"` — conjunctions carry only the
SET propositions, no negated literals — and rebuilding a table from the
re-parsed expression maps the very same permutation `0b1100`, present
in the input rows, to `true`. -/
theorem c2_counterexample :
    (TruthTable.parse_rows_str "000, 011, 101, 110").map (fun t => t.values_and_results)
      = .ok [(0, false), (4, true), (8, true), (12, false)]
    ∧ ((TruthTable.parse_rows_str "000, 011, 101, 110").bind
          TruthTable.to_expression_str).map String.mk = .ok "(B) | (A)"
    ∧ ((((TruthTable.parse_rows_str "000, 011, 101, 110").bind
          TruthTable.to_expression_str).bind
            (fun s => Expression.parse s true)).bind
              TruthTable.from_expression).map (fun t => t.values_and_results)
        = .ok [(0, false), (4, true), (8, true), (12, true)] := by decide

theorem except_bind_ok {α β : Type} {x : Except Err α} {f : α → Except Err β} {b : β}
    (h : (x >>= f) = .ok b) : ∃ a, x = .ok a ∧ f a = .ok b := by
  cases x with
  | error e => simp [Bind.bind, Except.bind] at h
  | ok a => exact ⟨a, rfl, by simpa [Bind.bind, Except.bind] using h⟩

theorem except_map_ok {α β : Type} {f : α → β} {x : Except Err α} {b : β}
    (h : (f <$> x) = .ok b) : ∃ a, x = .ok a ∧ f a = b := by
  cases x with
  | error e => simp [Functor.map, Except.map] at h
  | ok a => exact ⟨a, rfl, by simpa [Functor.map, Except.map] using h⟩

/-- Modelled from the spec (section 4.4): evaluation "starts with the
first element's value, then for each subsequent (operator, element)
pair, combines with logical AND or OR as dictated by that operator,
applied in textual order", with the negation flag handled inside
`evaluateElement`.  Stated as a left fold over the zipped
(operator, element) pairs, to be compared with the source's indexed
loop `Expression.evaluate`. -/
def Expression.evalSpec (e : Expression) : Option Bool :=
  match e.elements.toList with
  | [] => none
  | e0 :: rest =>
    (e.operators.zip rest).foldl
      (fun acc pr => acc.bind fun a =>
        (evaluateElement e.propositions pr.2).map fun v => applyOperator pr.1 a v)
      (evaluateElement e.propositions e0)

theorem evalSpec_foldl_none (props : PropositionTable)
    (l : List (Operator × ExpressionElement)) :
    l.foldl
      (fun acc pr => acc.bind fun a =>
        (evaluateElement props pr.2).map fun v => applyOperator pr.1 a v)
      none = none := by
  induction l with
  | nil => rfl
  | cons pr rest ih => simpa using ih

theorem evalChain_eq_foldl (props : PropositionTable) (ops : List Operator) :
    ∀ (els : ElemList) (acc : Bool), ops.length ≤ els.length →
    evalChain props acc ops els =
      (ops.zip els.toList).foldl
        (fun acc pr => acc.bind fun a =>
          (evaluateElement props pr.2).map fun v => applyOperator pr.1 a v)
        (some acc) := by
  induction ops with
  | nil => intro els acc h; simp [evalChain]
  | cons op ops ih =>
    intro els acc h
    cases els with
    | nil => simp [ElemList.length] at h
    | cons el els =>
      simp only [ElemList.length, List.length_cons] at h
      simp only [evalChain, ElemList.toList, List.zip_cons_cons, List.foldl_cons]
      cases hev : evaluateElement props el with
      | none =>
        simp only [hev, Option.bind_some, Option.map_none]
        exact (evalSpec_foldl_none props _).symm
      | some v =>
        simp only [hev, Option.bind_some, Option.map_some]
        exact ih els (applyOperator op acc v) (by omega)

/-- C5: the source's `evaluate` agrees with the spec's strict
left-to-right fold (no operator precedence): starting from the first
element's value, each subsequent (operator, element) pair is combined
with AND or OR in textual order, the negation flag applied to each
element's base value before combining.  In particular every parse of
`"A | B & C"` evaluates as `((A or B) and C)` on every permutation. -/
theorem c5_left_to_right_fold :
    (∀ e : Expression, e.elements.length = e.operators.length + 1 →
      e.evaluate = e.evalSpec)
    ∧ ∀ p : Nat,
        (Expression.parse ("A | B & C".toList) true).map
            (fun e => e.evaluate_permutation p)
          = .ok (some ((PropositionIdentifier.mask .A p || PropositionIdentifier.mask .B p)
              && PropositionIdentifier.mask .C p)) := by
  constructor
  · intro e h
    match e with
    | .mk .nil ops props => simp [ElemList.length] at h
    | .mk (.cons e0 rest) ops props =>
      simp only [Expression.elements, Expression.operators, ElemList.length] at h
      simp only [Expression.evaluate, Expression.evalSpec, Expression.elements,
        Expression.operators, Expression.propositions, ElemList.toList]
      cases hev : evaluateElement props e0 with
      | none => exact (evalSpec_foldl_none props _).symm
      | some r0 => exact evalChain_eq_foldl props ops rest r0 (by omega)
  · intro p
    rfl

/-- Witness for C5 at a concrete input: the expression parsed from
`"!A & B | C"` satisfies the element/operator length hypothesis, and the
theorem instantiates to it. -/
theorem c5_left_to_right_fold_witness :
    (Expression.mk
      (.cons (.mk (.proposition .A) true)
        (.cons (.mk (.proposition .B) false)
          (.cons (.mk (.proposition .C) false) .nil)))
      [Operator.and, Operator.or]
      (PropositionTable.fromExpressionStr ("!A & B | C".toList))).evaluate
    = (Expression.mk
      (.cons (.mk (.proposition .A) true)
        (.cons (.mk (.proposition .B) false)
          (.cons (.mk (.proposition .C) false) .nil)))
      [Operator.and, Operator.or]
      (PropositionTable.fromExpressionStr ("!A & B | C".toList))).evalSpec :=
  c5_left_to_right_fold.1 _ (by decide)

theorem get_value_set_all (t : PropositionTable) (v : Nat) (p : PropositionIdentifier) :
    (t.set_all v).get_value p
      = if t.containsKey p then some (p.mask v) else none := by
  obtain ⟨a, b, c, d⟩ := t
  cases p
  case A => cases a <;> rfl
  case B => cases b <;> rfl
  case C => cases c <;> rfl
  case D => cases d <;> rfl

mutual
/-- Evaluation after `set_values` depends only on the mask bits of the
propositions occurring in the expression tree. -/
theorem eval_mask_congr (e : Expression) (p q : Nat)
    (h : ∀ pr ∈ e.occurs, pr.mask p = pr.mask q) :
    (e.set_values p).evaluate = (e.set_values q).evaluate := by
  match e with
  | .mk .nil ops tbl => rfl
  | .mk (.cons el rest) ops tbl =>
    simp only [Expression.occurs, occursList, List.mem_append] at h
    simp only [Expression.set_values, setValuesList, Expression.evaluate]
    rw [evalElem_mask_congr tbl el p q (fun pr hpr => h pr (Or.inl hpr))]
    cases evaluateElement (tbl.set_all q) (setValuesElem el q) with
    | none => rfl
    | some r0 =>
      exact evalChain_mask_congr tbl r0 ops rest p q (fun pr hpr => h pr (Or.inr hpr))

theorem evalChain_mask_congr (tbl : PropositionTable) (acc : Bool)
    (ops : List Operator) (els : ElemList) (p q : Nat)
    (h : ∀ pr ∈ occursList els, pr.mask p = pr.mask q) :
    evalChain (tbl.set_all p) acc ops (setValuesList els p)
      = evalChain (tbl.set_all q) acc ops (setValuesList els q) := by
  match ops, els with
  | [], _ => simp [evalChain]
  | _ :: _, .nil => simp [setValuesList, evalChain]
  | op :: ops, .cons el rest =>
    simp only [occursList, List.mem_append] at h
    simp only [setValuesList, evalChain]
    rw [evalElem_mask_congr tbl el p q (fun pr hpr => h pr (Or.inl hpr))]
    cases evaluateElement (tbl.set_all q) (setValuesElem el q) with
    | none => rfl
    | some v =>
      exact evalChain_mask_congr tbl (applyOperator op acc v) ops rest p q
        (fun pr hpr => h pr (Or.inr hpr))

theorem evalElem_mask_congr (tbl : PropositionTable) (el : ExpressionElement) (p q : Nat)
    (h : ∀ pr ∈ occursElem el, pr.mask p = pr.mask q) :
    evaluateElement (tbl.set_all p) (setValuesElem el p)
      = evaluateElement (tbl.set_all q) (setValuesElem el q) := by
  match el with
  | .mk (.proposition pr) neg =>
    simp only [occursElem, List.mem_singleton] at h
    simp only [setValuesElem, evaluateElement, get_value_set_all, h pr rfl]
  | .mk (.subexpression e) neg =>
    simp only [occursElem] at h
    simp only [setValuesElem, evaluateElement]
    rw [eval_mask_congr e p q h]
end

/-- C10: noninterference of irrelevant bits: if two permutation bytes
agree on the mask bit of every proposition occurring anywhere in the
expression tree, then `evaluate_permutation` returns the same result on
both; bits at the positions of propositions absent from the expression
(and the bits beyond the low nibble) never influence the result. -/
theorem c10_noninterference (e : Expression) (p q : Nat)
    (h : ∀ pr ∈ e.occurs, pr.mask p = pr.mask q) :
    e.evaluate_permutation p = e.evaluate_permutation q :=
  eval_mask_congr e p q h

/-- Witness for C10: on the two-proposition expression `A & B`
(propositions at bits 3 and 2), the permutations `0b1100` and
`0b11111100` agree on the masks of A and B, and evaluation agrees. -/
theorem c10_noninterference_witness :
    (Expression.mk
      (.cons (.mk (.proposition .A) false)
        (.cons (.mk (.proposition .B) false) .nil))
      [Operator.and]
      (PropositionTable.fromExpressionStr ("A & B".toList))).evaluate_permutation 12
    = (Expression.mk
      (.cons (.mk (.proposition .A) false)
        (.cons (.mk (.proposition .B) false) .nil))
      [Operator.and]
      (PropositionTable.fromExpressionStr ("A & B".toList))).evaluate_permutation 252 :=
  c10_noninterference _ 12 252 (by decide)

mutual
/-- The recursive element/operator count invariant:
`elements.len() == operators.len() + 1` at this node and in every
nested subexpression. -/
def Expression.countInv : Expression → Bool
  | .mk es ops _ => (es.length == ops.length + 1) && elemListCountInv es

def elemListCountInv : ElemList → Bool
  | .nil => true
  | .cons el rest => elemCountInv el && elemListCountInv rest

def elemCountInv : ExpressionElement → Bool
  | .mk (.proposition _) _ => true
  | .mk (.subexpression e) _ => e.countInv
end

mutual
theorem parseFuel_countInv (fuel : Nat) (s : List Char) (v : Bool) (e : Expression)
    (h : parseFuel fuel s v = .ok e) : e.countInv = true := by
  match fuel with
  | 0 => simp [parseFuel] at h
  | fuel + 1 =>
    rw [parseFuel] at h
    split at h
    · simp at h
    · obtain ⟨⟨es, ops⟩, hloop, h2⟩ := except_bind_ok h
      split at h2
      · simp at h2
      · rename_i hlen
        simp only [Except.ok.injEq] at h2
        subst h2
        simp only [Expression.countInv, Bool.and_eq_true, beq_iff_eq]
        exact ⟨by simpa using hlen, parseLoopFuel_countInv fuel s false es ops hloop⟩

theorem parseLoopFuel_countInv (fuel : Nat) (s : List Char) (neg : Bool)
    (es : ElemList) (ops : List Operator)
    (h : parseLoopFuel fuel s neg = .ok (es, ops)) : elemListCountInv es = true := by
  match fuel, s with
  | 0, _ => simp [parseLoopFuel] at h
  | fuel + 1, [] =>
    simp only [parseLoopFuel, Except.ok.injEq, Prod.mk.injEq] at h
    obtain ⟨h1, _⟩ := h
    subst h1
    rfl
  | fuel + 1, c :: tail =>
    rw [parseLoopFuel] at h
    split at h
    · -- proposition letter
      obtain ⟨⟨es', ops'⟩, hloop, h2⟩ := except_bind_ok h
      simp only [Except.ok.injEq, Prod.mk.injEq] at h2
      obtain ⟨h2, _⟩ := h2
      subst h2
      simp only [elemListCountInv, elemCountInv, Bool.true_and]
      exact parseLoopFuel_countInv fuel tail false es' ops' hloop
    · -- opening parenthesis
      obtain ⟨sub, hsub, h2⟩ := except_bind_ok h
      obtain ⟨e', hsube, h3⟩ := except_bind_ok h2
      obtain ⟨⟨es', ops'⟩, hloop, h4⟩ := except_bind_ok h3
      simp only [Except.ok.injEq, Prod.mk.injEq] at h4
      obtain ⟨h4, _⟩ := h4
      subst h4
      simp only [elemListCountInv, elemCountInv, Bool.and_eq_true]
      exact ⟨parseFuel_countInv fuel sub false e' hsube,
        parseLoopFuel_countInv fuel (tail.drop (sub.length + 1)) false es' ops' hloop⟩
    · simp at h
    · exact parseLoopFuel_countInv fuel tail true es ops h
    · -- conjunction marker
      obtain ⟨⟨es', ops'⟩, hloop, h2⟩ := except_bind_ok h
      simp only [Except.ok.injEq, Prod.mk.injEq] at h2
      obtain ⟨h2, _⟩ := h2
      subst h2
      exact parseLoopFuel_countInv fuel tail neg es' ops' hloop
    · -- disjunction marker
      obtain ⟨⟨es', ops'⟩, hloop, h2⟩ := except_bind_ok h
      simp only [Except.ok.injEq, Prod.mk.injEq] at h2
      obtain ⟨h2, _⟩ := h2
      subst h2
      exact parseLoopFuel_countInv fuel tail neg es' ops' hloop
    · exact parseLoopFuel_countInv fuel tail neg es ops h
    · simp at h
end

/-- C7: every successful parse satisfies the interleaving invariant
`elements.len() == operators.len() + 1`, recursively in every nested
subexpression of the tree; and a mismatch — a trailing operator as in
`"A &"`, or two consecutive operators as in `"A & & B"` — is a fatal
user-facing parse error. -/
theorem c7_count_invariant :
    (∀ (s : List Char) (v : Bool) (e : Expression),
      Expression.parse s v = .ok e → e.countInv = true)
    ∧ isUserErr (Expression.parse ("A &".toList) true) = true
    ∧ isUserErr (Expression.parse ("A & & B".toList) true) = true := by
  refine ⟨fun s v e h => parseFuel_countInv _ s v e h, by decide, by decide⟩

/-- Witness for C7 at a concrete input: the parse of
`"(A & B) | !C"` succeeds and the theorem yields its invariant. -/
theorem c7_count_invariant_witness :
    ∃ e, Expression.parse ("(A & B) | !C".toList) true = .ok e ∧ e.countInv = true := by
  match hp : Expression.parse ("(A & B) | !C".toList) true with
  | .ok e => exact ⟨e, rfl, c7_count_invariant.1 _ true e hp⟩
  | .error err =>
    have hok : (Expression.parse ("(A & B) | !C".toList) true).isOk = true := by decide
    rw [hp] at hok
    simp [Except.isOk, Except.toBool] at hok

/-- The four identifiers in canonical order. -/
def canonicalPropositions : List PropositionIdentifier := [.A, .B, .C, .D]

/-- Accumulator-style joining with a separator, as both string-building
loops of `truth_table.rs` do: append the separator before a piece
unless the accumulator is still empty. -/
def joinSep (sep : List Char) (pieces : List (List Char)) (b : List Char) : List Char :=
  pieces.foldl (fun acc piece => (if acc ≠ [] then acc ++ sep else acc) ++ piece) b

theorem intercalate_cons_eq (sep x : List Char) (xs : List (List Char)) :
    List.intercalate sep (x :: xs) = x ++ (xs.map (fun y => sep ++ y)).flatten := by
  induction xs generalizing x with
  | nil => simp [List.intercalate]
  | cons y ys ih =>
    have : List.intercalate sep (x :: y :: ys) = x ++ sep ++ List.intercalate sep (y :: ys) := by
      simp [List.intercalate, List.intersperse_cons_cons]
    rw [this, ih y]
    simp [List.append_assoc]

theorem joinSep_ne (sep : List Char) :
    ∀ (pieces : List (List Char)) (b : List Char), b ≠ [] →
    joinSep sep pieces b = b ++ (pieces.map (fun y => sep ++ y)).flatten := by
  intro pieces
  induction pieces with
  | nil => intro b hb; simp [joinSep]
  | cons p ps ih =>
    intro b hb
    have hstep : joinSep sep (p :: ps) b = joinSep sep ps (b ++ sep ++ p) := by
      simp [joinSep, hb, List.append_assoc]
    rw [hstep, ih (b ++ sep ++ p) (by simp [hb])]
    simp [List.append_assoc]

theorem joinSep_nil (sep : List Char) (pieces : List (List Char))
    (h : ∀ p ∈ pieces, p ≠ []) :
    joinSep sep pieces [] = List.intercalate sep pieces := by
  cases pieces with
  | nil => simp [joinSep, List.intercalate]
  | cons p ps =>
    have hstep : joinSep sep (p :: ps) [] = joinSep sep ps p := by
      simp [joinSep]
    rw [hstep, joinSep_ne sep ps p (h p (by simp)), intercalate_cons_eq]

theorem from_int_canonical (i : Nat) (h : i < 4) :
    ∃ p, PropositionIdentifier.from_int i = .ok p
      ∧ canonicalPropositions.drop i = p :: canonicalPropositions.drop (i + 1) := by
  interval_cases i
  · exact ⟨.A, rfl, rfl⟩
  · exact ⟨.B, rfl, rfl⟩
  · exact ⟨.C, rfl, rfl⟩
  · exact ⟨.D, rfl, rfl⟩

/-- Modelled from the spec (section 4.5, `to_expression_str`): the
parenthesized conjunction of the propositions that are set in a
permutation, in canonical order: an opening parenthesis, the letters of
the set propositions joined by the conjunction separator, a closing
parenthesis.  A permutation with no set proposition yields the empty
pair. -/
def conjSpec (permutation proposition_count : Nat) : List Char :=
  [ '(']
    ++ List.intercalate [ ' ', '&', ' ']
        (((canonicalPropositions.take proposition_count).filter
            (fun p => p.mask permutation)).map (fun p => [p.to_char]))
    ++ [ ')']

/-- Modelled from the spec (section 4.5, `to_expression_str`): for every
permutation whose recorded result is true, in map order, emit its
parenthesized conjunction; join all conjunctions with the disjunction
separator; no true permutation yields the empty string. -/
def TruthTable.sopSpec (t : TruthTable) : List Char :=
  List.intercalate [ ' ', '|', ' ']
    ((t.values_and_results.filter (fun pr => pr.2)).map
      (fun pr => conjSpec pr.1 t.propositions.length))

theorem encodeConjAux_eq (permutation k : Nat) (hk : k ≤ 4) :
    ∀ (remaining i : Nat) (body : List Char), i + remaining = k →
    encodeConjAux permutation k i remaining ( '(' :: body)
      = .ok ( '(' :: (joinSep [ ' ', '&', ' ']
          ((((canonicalPropositions.drop i).take remaining).filter
              (fun p => p.mask permutation)).map (fun p => [p.to_char])) body) ++ [ ')']) := by
  intro remaining
  induction remaining with
  | zero => intro i body hik; simp [encodeConjAux, joinSep]
  | succ r ih =>
    intro i body hik
    obtain ⟨p, hpi, hdrop⟩ := from_int_canonical i (by omega)
    have hik' : ¬ i = k := by omega
    rw [encodeConjAux, hpi]
    simp only [Bind.bind, Except.bind]
    rw [hdrop]
    simp only [List.take_succ_cons, List.filter_cons]
    cases hmask : p.mask permutation with
    | false =>
      simp only [hmask, Bool.false_eq_true, if_false]
      exact ih (i + 1) body (by omega)
    | true =>
      simp only [hmask, if_true]
      have harg : (if ( '(' :: body ≠ [ '(']) ∧ i ≠ k
              then '(' :: body ++ [ ' ', '&', ' '] else '(' :: body) ++ [p.to_char]
          = '(' :: ((if body ≠ [] then body ++ [ ' ', '&', ' '] else body) ++ [p.to_char]) := by
        by_cases hb : body = [] <;> simp [hb, hik']
      rw [harg, ih (i + 1) _ (by omega)]
      simp [joinSep]

theorem encode_conjunction_eq (permutation k : Nat) (hk : k ≤ 4) :
    encode_conjunction permutation k = .ok (conjSpec permutation k) := by
  have h := encodeConjAux_eq permutation k hk k 0 [] (by omega)
  rw [encode_conjunction, h, joinSep_nil]
  · simp [conjSpec, List.drop_zero]
  · intro piece hp
    simp only [List.mem_map] at hp
    obtain ⟨pr, _, hpc⟩ := hp
    simp [← hpc]

theorem toExprStrAux_eq (k : Nat) (hk : k ≤ 4) :
    ∀ (rows : List (Nat × Bool)) (acc : List Char),
    toExprStrAux k rows acc
      = .ok (joinSep [ ' ', '|', ' ']
          ((rows.filter (fun pr => pr.2)).map (fun pr => conjSpec pr.1 k)) acc) := by
  intro rows
  induction rows with
  | nil => intro acc; simp [toExprStrAux, joinSep]
  | cons pr rest ih =>
    intro acc
    rw [toExprStrAux]
    cases hpr : pr.2 with
    | false =>
      simp only [hpr, Bool.false_eq_true, if_false, List.filter_cons, ih]
    | true =>
      simp only [hpr, if_true, List.filter_cons]
      rw [encode_conjunction_eq pr.1 k hk]
      simp only [Bind.bind, Except.bind]
      rw [ih]
      simp [joinSep]

/-- C9: `to_expression_str` produces the literal, unsimplified
sum-of-products encoding: for each permutation whose recorded result is
true (in map order) it emits the parenthesized conjunction of the set
propositions in canonical order, joined by disjunction; a table with no
true result yields the empty string; and a true permutation with no set
proposition bit contributes the empty pair `()`. -/
theorem c9_to_expression_str (t : TruthTable) (hk : t.propositions.length ≤ 4) :
    t.to_expression_str = .ok t.sopSpec
    ∧ ((∀ pr ∈ t.values_and_results, pr.2 = false) → t.to_expression_str = .ok [])
    ∧ ∀ permutation : Nat, (∀ p : PropositionIdentifier, p.mask permutation = false) →
        encode_conjunction permutation t.propositions.length = .ok ("()".toList) := by
  refine ⟨?_, ?_, ?_⟩
  · rw [TruthTable.to_expression_str, toExprStrAux_eq _ hk, TruthTable.sopSpec, joinSep_nil]
    intro piece hp
    simp only [List.mem_map] at hp
    obtain ⟨pr, _, hpc⟩ := hp
    simp [← hpc, conjSpec]
  · intro hall
    rw [TruthTable.to_expression_str, toExprStrAux_eq _ hk]
    have hfil : t.values_and_results.filter (fun pr => pr.2) = [] := by
      rw [List.filter_eq_nil_iff]
      intro pr hpr
      simp [hall pr hpr]
    simp [hfil, joinSep]
  · intro permutation hmask
    rw [encode_conjunction_eq _ _ hk]
    have hfil : (canonicalPropositions.take t.propositions.length).filter
        (fun p => p.mask permutation) = [] := by
      rw [List.filter_eq_nil_iff]
      intro p hp
      simp [hmask p]
    simp [conjSpec, hfil]
    rfl

/-- Witness for C9: the theorem applied to the exclusive-or table over
two propositions. -/
theorem c9_to_expression_str_witness :
    (TruthTable.mk [.A, .B] [(0, false), (4, true), (8, true), (12, false)]).to_expression_str
      = .ok (TruthTable.mk [.A, .B] [(0, false), (4, true), (8, true), (12, false)]).sopSpec :=
  (c9_to_expression_str _ (by decide)).1

theorem containsKey_insertUnset (t : PropositionTable) (q p : PropositionIdentifier) :
    (t.insertUnset q).containsKey p = true ↔ (p = q ∨ t.containsKey p = true) := by
  obtain ⟨a, b, c, d⟩ := t
  cases p <;> cases q <;>
    simp [PropositionTable.insertUnset, PropositionTable.containsKey, PropositionTable.getEntry]

theorem containsKey_foldl_insertLetter (l : List Char) :
    ∀ (t : PropositionTable) (p : PropositionIdentifier),
    ((l.foldl PropositionTable.insertLetter t).containsKey p = true)
      ↔ (t.containsKey p = true ∨ ∃ c ∈ l, PropositionIdentifier.from_char c = some p) := by
  induction l with
  | nil => intro t p; simp
  | cons c rest ih =>
    intro t p
    rw [List.foldl_cons, ih]
    unfold PropositionTable.insertLetter
    cases hc : PropositionIdentifier.from_char c with
    | none =>
      simp only [List.mem_cons]
      constructor
      · rintro (h | ⟨c', hc', hp⟩)
        · exact Or.inl h
        · exact Or.inr ⟨c', Or.inr hc', hp⟩
      · rintro (h | ⟨c', hc' | hc', hp⟩)
        · exact Or.inl h
        · rw [hc'] at hp; rw [hp] at hc; simp at hc
        · exact Or.inr ⟨c', hc', hp⟩
    | some q =>
      rw [containsKey_insertUnset]
      simp only [List.mem_cons]
      constructor
      · rintro ((h | h) | ⟨c', hc', hp⟩)
        · exact Or.inr ⟨c, Or.inl rfl, by rw [hc, h]⟩
        · exact Or.inl h
        · exact Or.inr ⟨c', Or.inr hc', hp⟩
      · rintro (h | ⟨c', hc' | hc', hp⟩)
        · exact Or.inl (Or.inr h)
        · rw [hc'] at hp; rw [hp] at hc
          simp only [Option.some.injEq] at hc
          exact Or.inl (Or.inl hc)
        · exact Or.inr ⟨c', hc', hp⟩

theorem containsKey_fromExpressionStr (s : List Char) (p : PropositionIdentifier) :
    ((PropositionTable.fromExpressionStr s).containsKey p = true)
      ↔ ∃ c ∈ s, PropositionIdentifier.from_char c = some p := by
  rw [PropositionTable.fromExpressionStr, containsKey_foldl_insertLetter]
  simp [PropositionTable.containsKey, PropositionTable.empty, PropositionTable.getEntry]
  intro h
  cases p <;> simp_all [PropositionTable.getEntry]

mutual
/-- Well-formedness of an expression tree as the parser produces it:
the count invariant holds at every node and every directly referenced
proposition is a key of the node's own table. -/
def Expression.wf : Expression → Bool
  | .mk es ops tbl => (es.length == ops.length + 1) && elemListWf tbl es

def elemListWf : PropositionTable → ElemList → Bool
  | _, .nil => true
  | tbl, .cons el rest => elemWf tbl el && elemListWf tbl rest

def elemWf : PropositionTable → ExpressionElement → Bool
  | tbl, .mk (.proposition p) _ => tbl.containsKey p
  | _, .mk (.subexpression e) _ => e.wf
end

theorem classifyChar_prop {c : Char} {p : PropositionIdentifier}
    (h : classifyChar c = .prop p) : PropositionIdentifier.from_char c = some p := by
  unfold classifyChar at h
  cases hc : PropositionIdentifier.from_char c with
  | none => rw [hc] at h; split_ifs at h
  | some q => rw [hc] at h; simp at h; rw [h]

mutual
theorem parseFuel_wf (fuel : Nat) (s : List Char) (v : Bool) (e : Expression)
    (h : parseFuel fuel s v = .ok e) :
    e.wf = true ∧ e.propositions = PropositionTable.fromExpressionStr s
      ∧ (v = true → (PropositionTable.fromExpressionStr s).validate = true) := by
  match fuel with
  | 0 => simp [parseFuel] at h
  | fuel + 1 =>
    rw [parseFuel] at h
    split at h
    · simp at h
    · rename_i hval
      obtain ⟨⟨es, ops⟩, hloop, h2⟩ := except_bind_ok h
      split at h2
      · simp at h2
      · rename_i hlen
        simp only [Except.ok.injEq] at h2
        subst h2
        refine ⟨?_, rfl, ?_⟩
        · simp only [Expression.wf, Bool.and_eq_true, beq_iff_eq]
          refine ⟨by simpa using hlen, ?_⟩
          exact parseLoopFuel_wf fuel s false es ops hloop _
            (fun p c hc hp => (containsKey_fromExpressionStr s p).2 ⟨c, hc, hp⟩)
        · intro hv
          subst hv
          by_cases hova : (PropositionTable.fromExpressionStr s).validate = true
          · exact hova
          · exact absurd ⟨rfl, by simpa using hova⟩ hval

theorem parseLoopFuel_wf (fuel : Nat) (s : List Char) (neg : Bool)
    (es : ElemList) (ops : List Operator)
    (h : parseLoopFuel fuel s neg = .ok (es, ops)) (tbl : PropositionTable)
    (htbl : ∀ (p : PropositionIdentifier) (c : Char), c ∈ s →
      PropositionIdentifier.from_char c = some p → tbl.containsKey p = true) :
    elemListWf tbl es = true := by
  match fuel, s with
  | 0, _ => simp [parseLoopFuel] at h
  | fuel + 1, [] =>
    simp only [parseLoopFuel, Except.ok.injEq, Prod.mk.injEq] at h
    obtain ⟨h1, _⟩ := h
    subst h1
    rfl
  | fuel + 1, c :: tail =>
    rw [parseLoopFuel] at h
    split at h
    · -- proposition letter
      rename_i p hclass
      obtain ⟨⟨es', ops'⟩, hloop, h2⟩ := except_bind_ok h
      simp only [Except.ok.injEq, Prod.mk.injEq] at h2
      obtain ⟨h2, _⟩ := h2
      subst h2
      simp only [elemListWf, elemWf, Bool.and_eq_true]
      refine ⟨htbl p c (by simp) (classifyChar_prop hclass), ?_⟩
      exact parseLoopFuel_wf fuel tail false es' ops' hloop tbl
        (fun p' c' hc' hp' => htbl p' c' (by simp [hc']) hp')
    · -- opening parenthesis
      obtain ⟨sub, hsub, h2⟩ := except_bind_ok h
      obtain ⟨e', hsube, h3⟩ := except_bind_ok h2
      obtain ⟨⟨es', ops'⟩, hloop, h4⟩ := except_bind_ok h3
      simp only [Except.ok.injEq, Prod.mk.injEq] at h4
      obtain ⟨h4, _⟩ := h4
      subst h4
      simp only [elemListWf, elemWf, Bool.and_eq_true]
      refine ⟨(parseFuel_wf fuel sub false e' hsube).1, ?_⟩
      exact parseLoopFuel_wf fuel (tail.drop (sub.length + 1)) false es' ops' hloop tbl
        (fun p' c' hc' hp' => htbl p' c' (by simp [List.drop_subset _ _ hc']) hp')
    · simp at h
    · exact parseLoopFuel_wf fuel tail true es ops h tbl
        (fun p' c' hc' hp' => htbl p' c' (by simp [hc']) hp')
    · obtain ⟨⟨es', ops'⟩, hloop, h2⟩ := except_bind_ok h
      simp only [Except.ok.injEq, Prod.mk.injEq] at h2
      obtain ⟨h2, _⟩ := h2
      subst h2
      exact parseLoopFuel_wf fuel tail neg es' ops' hloop tbl
        (fun p' c' hc' hp' => htbl p' c' (by simp [hc']) hp')
    · obtain ⟨⟨es', ops'⟩, hloop, h2⟩ := except_bind_ok h
      simp only [Except.ok.injEq, Prod.mk.injEq] at h2
      obtain ⟨h2, _⟩ := h2
      subst h2
      exact parseLoopFuel_wf fuel tail neg es' ops' hloop tbl
        (fun p' c' hc' hp' => htbl p' c' (by simp [hc']) hp')
    · exact parseLoopFuel_wf fuel tail neg es ops h tbl
        (fun p' c' hc' hp' => htbl p' c' (by simp [hc']) hp')
    · simp at h
end

theorem set_all_set_all (t : PropositionTable) (a b : Nat) :
    (t.set_all a).set_all b = t.set_all b := by
  obtain ⟨x1, x2, x3, x4⟩ := t
  cases x1 <;> cases x2 <;> cases x3 <;> cases x4 <;> rfl

mutual
theorem set_values_set_values (e : Expression) (a b : Nat) :
    (e.set_values a).set_values b = e.set_values b := by
  match e with
  | .mk es ops tbl =>
    simp only [Expression.set_values, set_all_set_all, Expression.mk.injEq, and_true, true_and]
    exact setValuesList_setValuesList es a b

theorem setValuesList_setValuesList (es : ElemList) (a b : Nat) :
    setValuesList (setValuesList es a) b = setValuesList es b := by
  match es with
  | .nil => rfl
  | .cons el rest =>
    simp only [setValuesList, ElemList.cons.injEq]
    exact ⟨setValuesElem_setValuesElem el a b, setValuesList_setValuesList rest a b⟩

theorem setValuesElem_setValuesElem (el : ExpressionElement) (a b : Nat) :
    setValuesElem (setValuesElem el a) b = setValuesElem el b := by
  match el with
  | .mk (.proposition p) neg => rfl
  | .mk (.subexpression e) neg =>
    simp only [setValuesElem, ExpressionElement.mk.injEq, ExpressionElementToken.subexpression.injEq,
      and_true]
    exact set_values_set_values e a b
end

mutual
theorem wf_evaluate_isSome (e : Expression) (h : e.wf = true) (v : Nat) :
    ((e.set_values v).evaluate).isSome = true := by
  match e with
  | .mk .nil ops tbl => simp [Expression.wf, ElemList.length] at h
  | .mk (.cons e0 rest) ops tbl =>
    simp only [Expression.wf, Bool.and_eq_true, beq_iff_eq, ElemList.length,
      elemListWf] at h
    obtain ⟨hlen, he0, hrest⟩ := h
    simp only [Expression.set_values, setValuesList, Expression.evaluate]
    have h0 := wf_evalElem_isSome tbl e0 he0 v
    cases hev : evaluateElement (tbl.set_all v) (setValuesElem e0 v) with
    | none => rw [hev] at h0; simp at h0
    | some r0 => exact wf_evalChain_isSome tbl r0 ops rest v (by omega) hrest

theorem wf_evalChain_isSome (tbl : PropositionTable) (acc : Bool) (ops : List Operator)
    (els : ElemList) (v : Nat) (hlen : ops.length ≤ els.length)
    (h : elemListWf tbl els = true) :
    (evalChain (tbl.set_all v) acc ops (setValuesList els v)).isSome = true := by
  match ops, els with
  | [], _ => simp [evalChain]
  | _ :: _, .nil => simp [ElemList.length] at hlen
  | op :: ops, .cons el rest =>
    simp only [elemListWf, Bool.and_eq_true] at h
    obtain ⟨hel, hrest⟩ := h
    simp only [setValuesList, evalChain]
    have h0 := wf_evalElem_isSome tbl el hel v
    cases hev : evaluateElement (tbl.set_all v) (setValuesElem el v) with
    | none => rw [hev] at h0; simp at h0
    | some r =>
      refine wf_evalChain_isSome tbl (applyOperator op acc r) ops rest v ?_ hrest
      simp only [List.length_cons, ElemList.length] at hlen ⊢
      omega

theorem wf_evalElem_isSome (tbl : PropositionTable) (el : ExpressionElement)
    (h : elemWf tbl el = true) (v : Nat) :
    (evaluateElement (tbl.set_all v) (setValuesElem el v)).isSome = true := by
  match el with
  | .mk (.proposition p) neg =>
    simp only [elemWf] at h
    simp [setValuesElem, evaluateElement, get_value_set_all, h]
  | .mk (.subexpression e) neg =>
    simp only [elemWf] at h
    have h0 := wf_evaluate_isSome e h v
    simp only [setValuesElem, evaluateElement]
    cases hev : (e.set_values v).evaluate with
    | none => rw [hev] at h0; simp at h0
    | some r => simp
end

theorem wf_evaluate_permutation_eq (e : Expression) (h : e.wf = true) (v : Nat) :
    e.evaluate_permutation v = some ((e.evaluate_permutation v).getD false) := by
  have hs := wf_evaluate_isSome e h v
  obtain ⟨r, hev⟩ := Option.isSome_iff_exists.1 hs
  simp [Expression.evaluate_permutation, hev]

theorem fromExprAux_set_values (e : Expression) (w : Nat) :
    ∀ (perms : List Nat) (acc : List (Nat × Bool)),
    fromExprAux (e.set_values w) perms acc = fromExprAux e perms acc := by
  intro perms
  induction perms with
  | nil => intro acc; rfl
  | cons p rest ih =>
    intro acc
    simp only [fromExprAux, set_values_set_values]

theorem fromExprAux_eq (e : Expression) (hwf : e.wf = true) :
    ∀ (perms : List Nat) (acc : List (Nat × Bool)),
    fromExprAux e perms acc
      = .ok (perms.foldl
          (fun m p => btInsert p ((e.evaluate_permutation p).getD false) m) acc) := by
  intro perms
  induction perms with
  | nil => intro acc; rfl
  | cons p rest ih =>
    intro acc
    have hsome := wf_evaluate_isSome e hwf p
    obtain ⟨r, hev⟩ := Option.isSome_iff_exists.1 hsome
    simp only [fromExprAux, List.foldl_cons, hev]
    rw [fromExprAux_set_values]
    have hr : (e.evaluate_permutation p).getD false = r := by
      simp [Expression.evaluate_permutation, hev]
    rw [hr]
    exact ih _

theorem count_le_four (t : PropositionTable) : t.count ≤ 4 := by
  simp only [PropositionTable.count]
  split_ifs <;> omega

theorem validate_count_range (t : PropositionTable) (h : t.validate = true) :
    1 ≤ t.count ∧ t.count ≤ 4 := by
  refine ⟨?_, count_le_four t⟩
  by_contra hc
  push_neg at hc
  have h0 : t.count = 0 := by omega
  unfold PropositionTable.validate at h
  rw [h0] at h
  simp at h

theorem c6_generic (e : Expression) (hwf : e.wf = true) (k : Nat)
    (props : List PropositionIdentifier) (L : List (Nat × Bool))
    (hgp : get_propositions k = .ok props)
    (hL : (get_bit_permutations k).foldl
        (fun m p => btInsert p ((e.evaluate_permutation p).getD false) m) [] = L)
    (hk : e.proposition_count = k)
    (hlen : L.length = 2 ^ k)
    (hchain : List.Chain' (· < ·) (L.map Prod.fst))
    (hmem : ∀ p : Nat, p ∈ L.map Prod.fst ↔ (p < 16 ∧ p % 2 ^ (4 - k) = 0))
    (hvals : ∀ pr ∈ L, pr.2 = (e.evaluate_permutation pr.1).getD false) :
    ∃ t, TruthTable.from_expression e = .ok t
      ∧ t.values_and_results.length = 2 ^ k
      ∧ List.Chain' (· < ·) (t.values_and_results.map Prod.fst)
      ∧ (∀ p : Nat, p ∈ t.values_and_results.map Prod.fst ↔ (p < 16 ∧ p % 2 ^ (4 - k) = 0))
      ∧ ∀ pr ∈ t.values_and_results, e.evaluate_permutation pr.1 = some pr.2 := by
  refine ⟨⟨props, L⟩, ?_, hlen, hchain, hmem, ?_⟩
  · simp only [TruthTable.from_expression, hk]
    rw [hgp, fromExprAux_eq e hwf, hL]
    simp [Bind.bind, Except.bind]
  · intro pr hpr
    rw [hvals pr hpr]
    exact (wf_evaluate_permutation_eq e hwf pr.1).symm ▸ wf_evaluate_permutation_eq e hwf pr.1

/-- C6: for an expression successfully parsed with validation (whose
table therefore holds `k` contiguous propositions, `1 ≤ k ≤ 4`),
`from_expression` builds a table whose mapping has exactly `2^k`
entries, with strictly increasing keys (no duplicates), whose key set is
exactly the set of packed values encoding an assignment of the `k`
propositions (the multiples of `2^(4-k)` below 16 — no gaps), each key
mapped to the result of `evaluate_permutation` on it. -/
theorem c6_table_complete (s : List Char) (e : Expression) (k : Nat)
    (hp : Expression.parse s true = .ok e) (hk : e.proposition_count = k) :
    1 ≤ k ∧ k ≤ 4 ∧
    ∃ t, TruthTable.from_expression e = .ok t
      ∧ t.values_and_results.length = 2 ^ k
      ∧ List.Chain' (· < ·) (t.values_and_results.map Prod.fst)
      ∧ (∀ p : Nat, p ∈ t.values_and_results.map Prod.fst ↔ (p < 16 ∧ p % 2 ^ (4 - k) = 0))
      ∧ ∀ pr ∈ t.values_and_results, e.evaluate_permutation pr.1 = some pr.2 := by
  obtain ⟨hwf, hprops, hval⟩ := parseFuel_wf _ s true e hp
  have hval' := hval rfl
  have hcount : k = (PropositionTable.fromExpressionStr s).count := by
    rw [← hk, Expression.proposition_count, hprops]
  have hrange : 1 ≤ k ∧ k ≤ 4 := by
    have := validate_count_range _ hval'
    omega
  refine ⟨hrange.1, hrange.2, ?_⟩
  obtain ⟨h1, h4⟩ := hrange
  interval_cases k
  · refine c6_generic e hwf 1 [.A]
      [(0, (e.evaluate_permutation 0).getD false), (8, (e.evaluate_permutation 8).getD false)]
      (by decide) ?_ hk (by simp) ?_ ?_ ?_
    · rw [show get_bit_permutations 1 = [0, 8] from by decide]
      simp [btInsert]
    · simp
    · intro p
      simp only [List.map_cons, List.map_nil, List.mem_cons, List.not_mem_nil, or_false]
      omega
    · intro pr hpr
      simp only [List.mem_cons, List.not_mem_nil, or_false] at hpr
      rcases hpr with rfl | rfl <;> rfl
  · refine c6_generic e hwf 2 [.A, .B]
      [(0, (e.evaluate_permutation 0).getD false), (4, (e.evaluate_permutation 4).getD false),
       (8, (e.evaluate_permutation 8).getD false), (12, (e.evaluate_permutation 12).getD false)]
      (by decide) ?_ hk (by simp) ?_ ?_ ?_
    · rw [show get_bit_permutations 2 = [0, 8, 4, 12] from by decide]
      simp [btInsert]
    · simp
    · intro p
      simp only [List.map_cons, List.map_nil, List.mem_cons, List.not_mem_nil, or_false]
      omega
    · intro pr hpr
      simp only [List.mem_cons, List.not_mem_nil, or_false] at hpr
      rcases hpr with rfl | rfl | rfl | rfl <;> rfl
  · refine c6_generic e hwf 3 [.A, .B, .C]
      [(0, (e.evaluate_permutation 0).getD false), (2, (e.evaluate_permutation 2).getD false),
       (4, (e.evaluate_permutation 4).getD false), (6, (e.evaluate_permutation 6).getD false),
       (8, (e.evaluate_permutation 8).getD false), (10, (e.evaluate_permutation 10).getD false),
       (12, (e.evaluate_permutation 12).getD false), (14, (e.evaluate_permutation 14).getD false)]
      (by decide) ?_ hk (by simp) ?_ ?_ ?_
    · rw [show get_bit_permutations 3 = [0, 8, 4, 12, 2, 10, 6, 14] from by decide]
      simp [btInsert]
    · simp
    · intro p
      simp only [List.map_cons, List.map_nil, List.mem_cons, List.not_mem_nil, or_false]
      omega
    · intro pr hpr
      simp only [List.mem_cons, List.not_mem_nil, or_false] at hpr
      rcases hpr with rfl | rfl | rfl | rfl | rfl | rfl | rfl | rfl <;> rfl
  · refine c6_generic e hwf 4 [.A, .B, .C, .D]
      [(0, (e.evaluate_permutation 0).getD false), (1, (e.evaluate_permutation 1).getD false),
       (2, (e.evaluate_permutation 2).getD false), (3, (e.evaluate_permutation 3).getD false),
       (4, (e.evaluate_permutation 4).getD false), (5, (e.evaluate_permutation 5).getD false),
       (6, (e.evaluate_permutation 6).getD false), (7, (e.evaluate_permutation 7).getD false),
       (8, (e.evaluate_permutation 8).getD false), (9, (e.evaluate_permutation 9).getD false),
       (10, (e.evaluate_permutation 10).getD false), (11, (e.evaluate_permutation 11).getD false),
       (12, (e.evaluate_permutation 12).getD false), (13, (e.evaluate_permutation 13).getD false),
       (14, (e.evaluate_permutation 14).getD false), (15, (e.evaluate_permutation 15).getD false)]
      (by decide) ?_ hk (by simp) ?_ ?_ ?_
    · rw [show get_bit_permutations 4
          = [0, 8, 4, 12, 2, 10, 6, 14, 1, 9, 5, 13, 3, 11, 7, 15] from by decide]
      simp [btInsert]
    · simp
    · intro p
      simp only [List.map_cons, List.map_nil, List.mem_cons, List.not_mem_nil, or_false]
      omega
    · intro pr hpr
      simp only [List.mem_cons, List.not_mem_nil, or_false] at hpr
      rcases hpr with rfl | rfl | rfl | rfl | rfl | rfl | rfl | rfl | rfl | rfl | rfl | rfl |
        rfl | rfl | rfl | rfl <;> rfl

/-- Witness for C6: the theorem applied to the parse of `"A & B"`. -/
theorem c6_table_complete_witness :
    ∃ e, Expression.parse ("A & B".toList) true = .ok e
      ∧ (1 ≤ e.proposition_count ∧ e.proposition_count ≤ 4
        ∧ ∃ t, TruthTable.from_expression e = .ok t
          ∧ t.values_and_results.length = 2 ^ e.proposition_count
          ∧ List.Chain' (· < ·) (t.values_and_results.map Prod.fst)
          ∧ (∀ p : Nat, p ∈ t.values_and_results.map Prod.fst
              ↔ (p < 16 ∧ p % 2 ^ (4 - e.proposition_count) = 0))
          ∧ ∀ pr ∈ t.values_and_results, e.evaluate_permutation pr.1 = some pr.2) := by
  match hp : Expression.parse ("A & B".toList) true with
  | .ok e => exact ⟨e, rfl, c6_table_complete _ e _ hp rfl⟩
  | .error err =>
    have hok : (Expression.parse ("A & B".toList) true).isOk = true := by decide
    rw [hp] at hok
    simp [Except.isOk, Except.toBool] at hok

theorem from_char_to_char (p : PropositionIdentifier) :
    PropositionIdentifier.from_char p.to_char = some p := by
  cases p <;> rfl

theorem classify_to_char (p : PropositionIdentifier) :
    classifyChar p.to_char = .prop p := by
  cases p <;> rfl

/-- The textual conjunction body generated by `encode_conjunction` for
a list of set propositions: the letters joined by the conjunction
separator. -/
def wordStr (ps : List PropositionIdentifier) : List Char :=
  List.intercalate [ ' ', '&', ' '] (ps.map (fun p => [p.to_char]))

theorem wordStr_nil : wordStr [] = [] := rfl

theorem wordStr_singleton (p : PropositionIdentifier) : wordStr [p] = [p.to_char] := rfl

theorem wordStr_cons_cons (p q : PropositionIdentifier) (rest : List PropositionIdentifier) :
    wordStr (p :: q :: rest) = p.to_char :: ' ' :: '&' :: ' ' :: wordStr (q :: rest) := by
  simp [wordStr, List.intercalate, List.intersperse_cons_cons]

theorem wordStr_chars (ps : List PropositionIdentifier) :
    ∀ c ∈ wordStr ps, c = ' ' ∨ c = '&' ∨ ∃ p : PropositionIdentifier, c = p.to_char := by
  match ps with
  | [] => simp [wordStr_nil]
  | [p] =>
    simp only [wordStr_singleton, List.mem_singleton]
    exact fun c hc => Or.inr (Or.inr ⟨p, hc⟩)
  | p :: q :: rest =>
    rw [wordStr_cons_cons]
    intro c hc
    simp only [List.mem_cons] at hc
    rcases hc with rfl | rfl | rfl | rfl | hc
    · exact Or.inr (Or.inr ⟨p, rfl⟩)
    · exact Or.inl rfl
    · exact Or.inr (Or.inl rfl)
    · exact Or.inl rfl
    · exact wordStr_chars (q :: rest) c hc

theorem wordStr_no_paren (ps : List PropositionIdentifier) :
    '(' ∉ wordStr ps ∧ ')' ∉ wordStr ps := by
  constructor <;> intro hc <;>
    rcases wordStr_chars ps _ hc with h | h | ⟨p, h⟩ <;> first
      | simp at h
      | (cases p <;> simp [PropositionIdentifier.to_char] at h)

/-- The textual sum-of-products generated by `to_expression_str`:
parenthesized conjunction words joined by the disjunction separator. -/
def sopStr (qs : List (List PropositionIdentifier)) : List Char :=
  List.intercalate [ ' ', '|', ' '] (qs.map (fun ps => '(' :: (wordStr ps ++ [ ')'])))

theorem sopStr_singleton (ps : List PropositionIdentifier) :
    sopStr [ps] = '(' :: (wordStr ps ++ [ ')']) := by
  simp [sopStr, List.intercalate]

theorem sopStr_cons_cons (ps qs : List PropositionIdentifier)
    (rest : List (List PropositionIdentifier)) :
    sopStr (ps :: qs :: rest)
      = '(' :: (wordStr ps ++ [ ')']) ++ ' ' :: '|' :: ' ' :: sopStr (qs :: rest) := by
  simp [sopStr, List.intercalate, List.intersperse_cons_cons]

theorem subexprAux_no_paren (w : List Char) (hw1 : '(' ∉ w) (hw2 : ')' ∉ w) :
    ∀ rest : List Char, subexprAux 1 (w ++ ')' :: rest) = w := by
  induction w with
  | nil => intro rest; simp [subexprAux]
  | cons c w' ih =>
    intro rest
    simp only [List.mem_cons, not_or] at hw1 hw2
    obtain ⟨hc1, hw1'⟩ := hw1
    obtain ⟨hc2, hw2'⟩ := hw2
    have h1 : c ≠ '(' := fun h => hc1 h.symm
    have h2 : c ≠ ')' := fun h => hc2 h.symm
    rw [List.cons_append, subexprAux]
    simp only [h1, h2, if_false, gt_iff_lt, Nat.zero_lt_one, if_true]
    rw [ih hw1' hw2' rest]

/-- Elements built from a list of plain (un-negated) propositions. -/
def propElems : List PropositionIdentifier → ElemList
  | [] => .nil
  | p :: rest => .cons (.mk (.proposition p) false) (propElems rest)

/-- Elements built from a list of plain (un-negated) subexpressions. -/
def subElems : List Expression → ElemList
  | [] => .nil
  | e :: rest => .cons (.mk (.subexpression e) false) (subElems rest)

theorem propElems_length (ps : List PropositionIdentifier) :
    (propElems ps).length = ps.length := by
  induction ps with
  | nil => rfl
  | cons p rest ih => simp [propElems, ElemList.length, ih]; omega

theorem subElems_length (es : List Expression) :
    (subElems es).length = es.length := by
  induction es with
  | nil => rfl
  | cons e rest ih => simp [subElems, ElemList.length, ih]; omega

theorem parseLoopFuel_nil (fuel : Nat) (h : 1 ≤ fuel) (neg : Bool) :
    parseLoopFuel fuel [] neg = .ok (.nil, []) := by
  obtain ⟨m, rfl⟩ : ∃ m, fuel = m + 1 := ⟨fuel - 1, by omega⟩
  rfl

/-- The expression produced by parsing one generated conjunction word
(with validation disabled, as in a nested context). -/
def wordExpr (ps : List PropositionIdentifier) : Expression :=
  .mk (propElems ps) (List.replicate (ps.length - 1) Operator.and)
    (PropositionTable.fromExpressionStr (wordStr ps))

theorem parseLoopFuel_word (ps : List PropositionIdentifier) (hne : ps ≠ []) :
    ∀ fuel, 2 * (wordStr ps).length + 1 ≤ fuel →
    parseLoopFuel fuel (wordStr ps) false
      = .ok (propElems ps, List.replicate (ps.length - 1) Operator.and) := by
  match ps with
  | [p] =>
    intro fuel hf
    rw [wordStr_singleton] at hf ⊢
    simp only [List.length_singleton] at hf
    obtain ⟨f1, rfl⟩ : ∃ m, fuel = m + 1 := ⟨fuel - 1, by omega⟩
    rw [parseLoopFuel]
    simp only [classify_to_char]
    rw [parseLoopFuel_nil f1 (by omega)]
    simp [Bind.bind, Except.bind, propElems]
  | p :: q :: rest =>
    intro fuel hf
    rw [wordStr_cons_cons] at hf ⊢
    simp only [List.length_cons] at hf
    obtain ⟨f1, rfl⟩ : ∃ m, fuel = m + 1 := ⟨fuel - 1, by omega⟩
    rw [parseLoopFuel]
    simp only [classify_to_char]
    obtain ⟨f2, rfl⟩ : ∃ m, f1 = m + 1 := ⟨f1 - 1, by omega⟩
    rw [parseLoopFuel]
    rw [show classifyChar ' ' = CharKind.ws from by decide]
    obtain ⟨f3, rfl⟩ : ∃ m, f2 = m + 1 := ⟨f2 - 1, by omega⟩
    rw [parseLoopFuel]
    rw [show classifyChar '&' = CharKind.conj from by decide]
    obtain ⟨f4, rfl⟩ : ∃ m, f3 = m + 1 := ⟨f3 - 1, by omega⟩
    rw [parseLoopFuel]
    rw [show classifyChar ' ' = CharKind.ws from by decide]
    rw [parseLoopFuel_word (q :: rest) (by simp) f4 (by omega)]
    simp [Bind.bind, Except.bind, propElems, List.replicate_succ]

theorem parseFuel_word (ps : List PropositionIdentifier) (hne : ps ≠ []) :
    ∀ fuel, 2 * (wordStr ps).length + 2 ≤ fuel →
    parseFuel fuel (wordStr ps) false = .ok (wordExpr ps) := by
  intro fuel hf
  obtain ⟨f1, rfl⟩ : ∃ m, fuel = m + 1 := ⟨fuel - 1, by omega⟩
  rw [parseFuel]
  simp only [false_and, if_false, Bool.false_eq_true]
  rw [parseLoopFuel_word ps hne f1 (by omega)]
  have hlen : (propElems ps).length = (List.replicate (ps.length - 1) Operator.and).length + 1 := by
    rw [propElems_length, List.length_replicate]
    cases ps with
    | nil => exact absurd rfl hne
    | cons a b => simp
  simp [Bind.bind, Except.bind, hlen, wordExpr]

theorem wordStr_mem_to_char (ps : List PropositionIdentifier) :
    ∀ p ∈ ps, p.to_char ∈ wordStr ps := by
  match ps with
  | [] => simp
  | [q] => simp [wordStr_singleton]
  | q :: r :: rest =>
    intro p hp
    rw [wordStr_cons_cons]
    simp only [List.mem_cons] at hp
    rcases hp with rfl | hp
    · simp
    · have := wordStr_mem_to_char (r :: rest) p (List.mem_cons.2 hp)
      simp [this]

theorem setValuesList_propElems (ps : List PropositionIdentifier) (v : Nat) :
    setValuesList (propElems ps) v = propElems ps := by
  induction ps with
  | nil => rfl
  | cons p rest ih => simp [propElems, setValuesList, setValuesElem, ih]

theorem setValuesList_subElems (es : List Expression) (v : Nat) :
    setValuesList (subElems es) v = subElems (es.map (fun e => e.set_values v)) := by
  induction es with
  | nil => rfl
  | cons e rest ih => simp [subElems, setValuesList, setValuesElem, ih]

theorem evalChain_word (tbl : PropositionTable) (v : Nat) (ps : List PropositionIdentifier)
    (hk : ∀ p ∈ ps, tbl.containsKey p = true) :
    ∀ acc : Bool,
    evalChain (tbl.set_all v) acc (List.replicate ps.length Operator.and) (propElems ps)
      = some (acc && ps.all (fun p => p.mask v)) := by
  induction ps with
  | nil => intro acc; simp [propElems, evalChain]
  | cons p rest ih =>
    intro acc
    have h1 : tbl.containsKey p = true := hk p (by simp)
    have h2 := ih (fun q hq => hk q (by simp [hq])) (acc && p.mask v)
    simp only [List.length_cons, List.replicate_succ, propElems, evalChain, evaluateElement,
      get_value_set_all, h1, if_true, Bool.false_eq_true, if_false]
    rw [show applyOperator Operator.and acc (p.mask v) = (acc && p.mask v) from rfl, h2]
    simp [Bool.and_assoc]

theorem eval_wordExpr (ps : List PropositionIdentifier) (hne : ps ≠ []) (v : Nat) :
    (wordExpr ps).evaluate_permutation v = some (ps.all (fun p => p.mask v)) := by
  have hk : ∀ p ∈ ps, (PropositionTable.fromExpressionStr (wordStr ps)).containsKey p = true :=
    fun p hp => (containsKey_fromExpressionStr _ p).2
      ⟨p.to_char, wordStr_mem_to_char ps p hp, from_char_to_char p⟩
  rw [Expression.evaluate_permutation]
  simp only [wordExpr, Expression.set_values, setValuesList_propElems]
  match ps, hne, hk with
  | p0 :: rest, _, hk =>
    have h1 := hk p0 (by simp)
    have h2 := evalChain_word (PropositionTable.fromExpressionStr (wordStr (p0 :: rest))) v rest
      (fun q hq => hk q (by simp [hq])) (p0.mask v)
    simp only [propElems, List.length_cons, Nat.add_sub_cancel, Expression.evaluate,
      evaluateElement, get_value_set_all, h1, if_true, Bool.false_eq_true, if_false]
    rw [h2]
    simp

theorem evaluate_cons_eq (el : ExpressionElement) (els : ElemList) (ops : List Operator)
    (tbl : PropositionTable) :
    (Expression.mk (.cons el els) ops tbl).evaluate
      = match evaluateElement tbl el with
        | none => none
        | some r0 => evalChain tbl r0 ops els := rfl

theorem evaluateElement_sub_eq (tbl : PropositionTable) (e : Expression) (neg : Bool) :
    evaluateElement tbl (.mk (.subexpression e) neg)
      = match e.evaluate with
        | none => none
        | some v => some (if neg then !v else v) := rfl

theorem evalChain_cons_eq (tbl : PropositionTable) (acc : Bool) (op : Operator)
    (ops : List Operator) (el : ExpressionElement) (els : ElemList) :
    evalChain tbl acc (op :: ops) (.cons el els)
      = match evaluateElement tbl el with
        | none => none
        | some v => evalChain tbl (applyOperator op acc v) ops els := rfl

theorem evalChain_top (tbl : PropositionTable) (v : Nat)
    (qs : List (List PropositionIdentifier)) (hne : ∀ ps ∈ qs, ps ≠ []) :
    ∀ acc : Bool,
    evalChain (tbl.set_all v) acc (List.replicate qs.length Operator.or)
        (setValuesList (subElems (qs.map wordExpr)) v)
      = some (acc || qs.any (fun ps => ps.all (fun p => p.mask v))) := by
  induction qs with
  | nil => intro acc; simp [subElems, setValuesList, evalChain]
  | cons ps rest ih =>
    intro acc
    have hstep : setValuesList (subElems ((ps :: rest).map wordExpr)) v
        = .cons (.mk (.subexpression ((wordExpr ps).set_values v)) false)
            (setValuesList (subElems (rest.map wordExpr)) v) := by
      simp [subElems, setValuesList, setValuesElem]
    rw [hstep]
    have hev : ((wordExpr ps).set_values v).evaluate
        = some (ps.all (fun p => p.mask v)) := eval_wordExpr ps (hne ps (by simp)) v
    simp only [List.length_cons, List.replicate_succ, evalChain_cons_eq,
      evaluateElement_sub_eq, hev, Bool.false_eq_true, if_false]
    have := ih (fun q hq => hne q (by simp [hq]))
      (applyOperator Operator.or acc (ps.all (fun p => p.mask v)))
    rw [this]
    simp [applyOperator, Bool.or_assoc]

/-- Evaluation of the re-parsed sum-of-products expression: true exactly
when some conjunct's proposition set is entirely set in the permutation. -/
theorem eval_topExpr (qs : List (List PropositionIdentifier)) (hne : ∀ ps ∈ qs, ps ≠ [])
    (hqs : qs ≠ []) (tbl : PropositionTable) (v : Nat) :
    (Expression.mk (subElems (qs.map wordExpr))
        (List.replicate (qs.length - 1) Operator.or) tbl).evaluate_permutation v
      = some (qs.any (fun ps => ps.all (fun p => p.mask v))) := by
  match qs, hne, hqs with
  | ps0 :: rest, hne, _ =>
    rw [Expression.evaluate_permutation, Expression.set_values]
    have hstep : setValuesList (subElems ((ps0 :: rest).map wordExpr)) v
        = .cons (.mk (.subexpression ((wordExpr ps0).set_values v)) false)
            (setValuesList (subElems (rest.map wordExpr)) v) := by
      simp [subElems, setValuesList, setValuesElem]
    rw [hstep]
    have hev : ((wordExpr ps0).set_values v).evaluate
        = some (ps0.all (fun p => p.mask v)) := eval_wordExpr ps0 (hne ps0 (by simp)) v
    simp only [List.length_cons, Nat.add_sub_cancel, evaluate_cons_eq,
      evaluateElement_sub_eq, hev, Bool.false_eq_true, if_false]
    have := evalChain_top tbl v rest (fun q hq => hne q (by simp [hq]))
      (ps0.all (fun p => p.mask v))
    rw [this]
    simp

theorem get_subexpression_word (w : List Char) (hw1 : '(' ∉ w) (hw2 : ')' ∉ w)
    (X : List Char) :
    get_subexpression ('(' :: (w ++ ')' :: X)) = .ok w := by
  simp [get_subexpression, subexprAux_no_paren w hw1 hw2 X]

theorem drop_word (w X : List Char) : (w ++ ')' :: X).drop (w.length + 1) = X := by
  rw [show w ++ ')' :: X = (w ++ [ ')']) ++ X by simp]
  rw [show w.length + 1 = (w ++ [ ')']).length by simp]
  exact List.drop_left _ _

theorem parseLoopFuel_sop (qs : List (List PropositionIdentifier))
    (hne : ∀ ps ∈ qs, ps ≠ []) (hqs : qs ≠ []) :
    ∀ fuel, 2 * (sopStr qs).length + 1 ≤ fuel →
    parseLoopFuel fuel (sopStr qs) false
      = .ok (subElems (qs.map wordExpr), List.replicate (qs.length - 1) Operator.or) := by
  match qs with
  | [ps] =>
    intro fuel hf
    rw [sopStr_singleton] at hf ⊢
    simp only [List.length_cons, List.length_append, List.length_singleton] at hf
    obtain ⟨f1, rfl⟩ : ∃ m, fuel = m + 1 := ⟨fuel - 1, by omega⟩
    rw [parseLoopFuel]
    rw [show classifyChar '(' = CharKind.paren from by decide]
    rw [show wordStr ps ++ [ ')'] = wordStr ps ++ ')' :: [] from rfl]
    rw [get_subexpression_word (wordStr ps) (wordStr_no_paren ps).1 (wordStr_no_paren ps).2 []]
    simp only [Bind.bind, Except.bind]
    rw [parseFuel_word ps (hne ps (by simp)) f1 (by omega)]
    rw [drop_word, parseLoopFuel_nil f1 (by omega)]
    simp [subElems]
  | ps :: ps2 :: rest =>
    intro fuel hf
    have hshape : sopStr (ps :: ps2 :: rest)
        = '(' :: (wordStr ps ++ ')' :: (' ' :: '|' :: ' ' :: sopStr (ps2 :: rest))) := by
      rw [sopStr_cons_cons]
      simp
    rw [hshape] at hf ⊢
    simp only [List.length_cons, List.length_append] at hf
    obtain ⟨f1, rfl⟩ : ∃ m, fuel = m + 1 := ⟨fuel - 1, by omega⟩
    rw [parseLoopFuel]
    rw [show classifyChar '(' = CharKind.paren from by decide]
    rw [get_subexpression_word (wordStr ps) (wordStr_no_paren ps).1 (wordStr_no_paren ps).2 _]
    simp only [Bind.bind, Except.bind]
    rw [parseFuel_word ps (hne ps (by simp)) f1 (by omega)]
    rw [drop_word]
    obtain ⟨f2, rfl⟩ : ∃ m, f1 = m + 1 := ⟨f1 - 1, by omega⟩
    rw [parseLoopFuel]
    rw [show classifyChar ' ' = CharKind.ws from by decide]
    obtain ⟨f3, rfl⟩ : ∃ m, f2 = m + 1 := ⟨f2 - 1, by omega⟩
    rw [parseLoopFuel]
    rw [show classifyChar '|' = CharKind.disj from by decide]
    obtain ⟨f4, rfl⟩ : ∃ m, f3 = m + 1 := ⟨f3 - 1, by omega⟩
    rw [parseLoopFuel]
    rw [show classifyChar ' ' = CharKind.ws from by decide]
    rw [parseLoopFuel_sop (ps2 :: rest) (fun q hq => hne q (by simp [hq])) (by simp) f4
      (by omega)]
    simp [subElems, List.replicate_succ, Bind.bind, Except.bind]

theorem parseFuel_nil_false_err (fuel : Nat) (h : 2 ≤ fuel) :
    parseFuel fuel [] false
      = .error (.user "Mismatched proposition and operator count in expression") := by
  obtain ⟨f1, rfl⟩ : ∃ m, fuel = m + 1 := ⟨fuel - 1, by omega⟩
  rw [parseFuel]
  simp only [false_and, if_false, Bool.false_eq_true]
  rw [parseLoopFuel_nil f1 (by omega)]
  simp [Bind.bind, Except.bind, ElemList.length]

theorem parseLoopFuel_sop_bad (qs : List (List PropositionIdentifier)) (hbad : [] ∈ qs) :
    ∀ fuel, 2 * (sopStr qs).length + 1 ≤ fuel →
    ∃ err, parseLoopFuel fuel (sopStr qs) false = .error err := by
  match qs with
  | [] => simp at hbad
  | ps :: rest =>
    intro fuel hf
    by_cases hps : ps = []
    · subst hps
      have hshape : ∃ X, sopStr ([] :: rest) = '(' :: (wordStr [] ++ ')' :: X) := by
        cases rest with
        | nil => exact ⟨[], by rw [sopStr_singleton]⟩
        | cons r rs =>
          exact ⟨' ' :: '|' :: ' ' :: sopStr (r :: rs), by rw [sopStr_cons_cons]; simp⟩
      obtain ⟨X, hX⟩ := hshape
      rw [hX] at hf ⊢
      simp only [wordStr_nil, List.nil_append, List.length_cons] at hf ⊢
      obtain ⟨f1, rfl⟩ : ∃ m, fuel = m + 1 := ⟨fuel - 1, by omega⟩
      rw [parseLoopFuel]
      rw [show classifyChar '(' = CharKind.paren from by decide]
      rw [show (')' :: X) = ([] ++ ')' :: X) from rfl]
      rw [get_subexpression_word [] (by simp) (by simp) X]
      simp only [Bind.bind, Except.bind]
      rw [parseFuel_nil_false_err f1 (by omega)]
      exact ⟨_, rfl⟩
    · have hbad' : [] ∈ rest := by
        rcases List.mem_cons.1 hbad with h | h
        · exact absurd h.symm hps
        · exact h
      match rest, hbad' with
      | r :: rs, hbad' =>
        have hshape : sopStr (ps :: r :: rs)
            = '(' :: (wordStr ps ++ ')' :: (' ' :: '|' :: ' ' :: sopStr (r :: rs))) := by
          rw [sopStr_cons_cons]
          simp
        rw [hshape] at hf ⊢
        simp only [List.length_cons, List.length_append] at hf
        obtain ⟨f1, rfl⟩ : ∃ m, fuel = m + 1 := ⟨fuel - 1, by omega⟩
        rw [parseLoopFuel]
        rw [show classifyChar '(' = CharKind.paren from by decide]
        rw [get_subexpression_word (wordStr ps) (wordStr_no_paren ps).1
          (wordStr_no_paren ps).2 _]
        simp only [Bind.bind, Except.bind]
        rw [parseFuel_word ps hps f1 (by omega)]
        rw [drop_word]
        obtain ⟨f2, rfl⟩ : ∃ m, f1 = m + 1 := ⟨f1 - 1, by omega⟩
        rw [parseLoopFuel]
        rw [show classifyChar ' ' = CharKind.ws from by decide]
        obtain ⟨f3, rfl⟩ : ∃ m, f2 = m + 1 := ⟨f2 - 1, by omega⟩
        rw [parseLoopFuel]
        rw [show classifyChar '|' = CharKind.disj from by decide]
        obtain ⟨f4, rfl⟩ : ∃ m, f3 = m + 1 := ⟨f3 - 1, by omega⟩
        rw [parseLoopFuel]
        rw [show classifyChar ' ' = CharKind.ws from by decide]
        obtain ⟨err, herr⟩ := parseLoopFuel_sop_bad (r :: rs) hbad' f4 (by omega)
        rw [herr]
        exact ⟨err, rfl⟩

theorem mem_btInsert_self (k : Nat) (v : Bool) (l : List (Nat × Bool)) :
    (k, v) ∈ btInsert k v l := by
  induction l with
  | nil => simp [btInsert]
  | cons pr rest ih =>
    rw [btInsert]
    split_ifs with h1 h2
    · simp
    · simp
    · simp [ih]

theorem mem_btInsert_of_ne (k : Nat) (v : Bool) (l : List (Nat × Bool)) (pr : Nat × Bool)
    (hpr : pr ∈ l) (hne : pr.1 ≠ k) : pr ∈ btInsert k v l := by
  induction l with
  | nil => simp at hpr
  | cons pr' rest ih =>
    rw [btInsert]
    rcases List.mem_cons.1 hpr with rfl | hpr
    · split_ifs with h1 h2
      · simp
      · exact absurd h2.symm hne
      · simp
    · split_ifs with h1 h2
      · simp [hpr]
      · simp [hpr]
      · simp [ih hpr]

theorem mem_fold_preserve (f : Nat → Bool) (pr : Nat × Bool) :
    ∀ (perms : List Nat) (acc : List (Nat × Bool)), pr ∈ acc → pr.1 ∉ perms →
    pr ∈ perms.foldl (fun m q => btInsert q (f q) m) acc := by
  intro perms
  induction perms with
  | nil => intro acc h _; simpa using h
  | cons q rest ih =>
    intro acc hacc hnot
    simp only [List.mem_cons, not_or] at hnot
    rw [List.foldl_cons]
    exact ih _ (mem_btInsert_of_ne q (f q) acc pr hacc hnot.1) hnot.2

theorem mem_fold_btInsert (f : Nat → Bool) (p : Nat) :
    ∀ (perms : List Nat), p ∈ perms → perms.Nodup →
    ∀ acc, (p, f p) ∈ perms.foldl (fun m q => btInsert q (f q) m) acc := by
  intro perms
  induction perms with
  | nil => intro h; simp at h
  | cons q rest ih =>
    intro hp hnd acc
    rw [List.foldl_cons]
    rcases List.mem_cons.1 hp with rfl | hp
    · exact mem_fold_preserve f (p, f p) rest _ (mem_btInsert_self p (f p) acc)
        (by simpa using (List.nodup_cons.1 hnd).1)
    · exact ih hp (List.nodup_cons.1 hnd).2 _

theorem mem_btInsert_elim (k : Nat) (v : Bool) (l : List (Nat × Bool)) (pr : Nat × Bool)
    (h : pr ∈ btInsert k v l) : pr = (k, v) ∨ pr ∈ l := by
  induction l with
  | nil => simpa [btInsert] using h
  | cons pr' rest ih =>
    rw [btInsert] at h
    split_ifs at h
    · simpa using h
    · rcases List.mem_cons.1 h with rfl | h
      · exact Or.inl rfl
      · exact Or.inr (by simp [h])
    · rcases List.mem_cons.1 h with rfl | h
      · exact Or.inr (by simp)
      · rcases ih h with h | h
        · exact Or.inl h
        · exact Or.inr (by simp [h])

theorem rowsToValueMapAux_mem (rows : List (List Char)) :
    ∀ (acc res : List (Nat × Bool)), rowsToValueMapAux rows acc = .ok res →
    ∀ pr ∈ res, pr ∈ acc ∨ ∃ row ∈ rows, decode_permutation_str row = .ok pr.1 := by
  induction rows with
  | nil =>
    intro acc res h pr hpr
    simp only [rowsToValueMapAux, Except.ok.injEq] at h
    subst h
    exact Or.inl hpr
  | cons row rest ih =>
    intro acc res h pr hpr
    rw [rowsToValueMapAux] at h
    obtain ⟨perm, hdec, h2⟩ := except_bind_ok h
    cases hlast : row.getLast? with
    | none => rw [hlast] at h2; simp at h2
    | some c =>
      rw [hlast] at h2
      rcases ih _ res h2 pr hpr with hin | ⟨row', hrow', hdec'⟩
      · rcases mem_btInsert_elim perm (c = '1') acc pr hin with rfl | hin
        · exact Or.inr ⟨row, by simp, hdec⟩
        · exact Or.inl hin
      · exact Or.inr ⟨row', by simp [hrow'], hdec'⟩

theorem binToNat_go_lt : ∀ (cs : List Char) (acc v : Nat),
    binToNat.go cs acc = some v → v < (acc + 1) * 2 ^ cs.length := by
  intro cs
  induction cs with
  | nil =>
    intro acc v h
    simp only [binToNat.go, Option.some.injEq] at h
    subst h
    simp
  | cons c rest ih =>
    intro acc v h
    rw [binToNat.go] at h
    split_ifs at h
    · have := ih (2 * acc) v h
      simp only [List.length_cons, pow_succ]
      calc v < (2 * acc + 1) * 2 ^ rest.length := this
        _ ≤ (acc + 1) * (2 ^ rest.length * 2) := by ring_nf; omega
    · have := ih (2 * acc + 1) v h
      simp only [List.length_cons, pow_succ]
      calc v < (2 * acc + 1 + 1) * 2 ^ rest.length := this
        _ ≤ (acc + 1) * (2 ^ rest.length * 2) := by ring_nf; omega

theorem binToNat_lt (l : List Char) (v : Nat) (h : binToNat l = some v) : v < 2 ^ l.length := by
  match l, h with
  | [], h => simp [binToNat] at h
  | c :: cs, h =>
    have := binToNat_go_lt (c :: cs) 0 v h
    simpa using this

theorem decode_bound (row : List Char) (p : Nat)
    (h : decode_permutation_str row = .ok p) :
    p < 16 ∧ p % 2 ^ (4 - (row.length - 1)) = 0 := by
  rw [decode_permutation_str] at h
  cases hb : binToNat (row.take (row.length - 1)) with
  | none => rw [hb] at h; simp at h
  | some v =>
    rw [hb] at h
    have hvlt := binToNat_lt _ v hb
    rw [List.length_take] at hvlt
    simp only [List.length_take] at h
    have hmin : min (row.length - 1) row.length = row.length - 1 := by omega
    rw [hmin] at hvlt h
    split_ifs at h with hc
    · simp only [Except.ok.injEq] at h
      subst h
      have hexp : (2:Nat) ^ (row.length - 1) * 2 ^ (4 - (row.length - 1)) ≤ 16 := by
        rw [← pow_add]
        calc (2:Nat) ^ ((row.length - 1) + (4 - (row.length - 1)))
            ≤ 2 ^ 4 := Nat.pow_le_pow_right (by omega) (by omega)
          _ = 16 := rfl
      have hpos : 0 < (2:Nat) ^ (4 - (row.length - 1)) := Nat.pos_pow_of_pos _ (by omega)
      have hlt : v * 2 ^ (4 - (row.length - 1)) < 16 := by
        calc v * 2 ^ (4 - (row.length - 1))
            < 2 ^ (row.length - 1) * 2 ^ (4 - (row.length - 1)) :=
              (Nat.mul_lt_mul_right hpos).2 hvlt
          _ ≤ 16 := hexp
      rw [Nat.mod_eq_of_lt (show v * 2 ^ (4 - (row.length - 1)) < 256 by omega)]
      exact ⟨hlt, Nat.mul_mod_left v _⟩

theorem validate_rows_facts (row0 : List Char) (rest : List (List Char))
    (h : validate_rows (row0 :: rest) = .ok ()) :
    2 ≤ row0.length ∧ row0.length ≤ 5
      ∧ ∀ row ∈ row0 :: rest, row.length = row0.length := by
  rw [validate_rows] at h
  cases hb1 : (row0 :: rest).any fun row => row.any fun c => c ≠ '0' ∧ c ≠ '1' with
  | true => rw [hb1] at h; simp at h
  | false =>
    rw [hb1] at h
    simp only [Bool.false_eq_true, if_false] at h
    by_cases hb2 : row0.length < 2 ∨ row0.length > 5
    · rw [if_pos hb2] at h; simp at h
    · rw [if_neg hb2] at h
      cases hb3 : (row0 :: rest).any fun row => row.length ≠ row0.length with
      | true => rw [hb3] at h; simp at h
      | false =>
        refine ⟨by omega, by omega, ?_⟩
        intro row hrow
        rcases List.mem_cons.1 hrow with rfl | hrow
        · rfl
        · have h5 : ∀ x ∈ rest, x.length = row0.length := by simpa using hb3
          exact h5 row hrow

theorem get_propositions_go_length :
    ∀ (r i : Nat) (l : List PropositionIdentifier),
    get_propositions.go i r = .ok l → l.length = r := by
  intro r
  induction r with
  | zero =>
    intro i l h
    simp only [get_propositions.go, Except.ok.injEq] at h
    subst h
    rfl
  | succ n ih =>
    intro i l h
    rw [get_propositions.go] at h
    obtain ⟨p, hp, h2⟩ := except_bind_ok h
    obtain ⟨rest, hrest, h3⟩ := except_bind_ok h2
    simp only [Except.ok.injEq] at h3
    subst h3
    simp [ih (i + 1) rest hrest]

theorem get_propositions_length (k : Nat) (l : List PropositionIdentifier)
    (h : get_propositions k = .ok l) : l.length = k :=
  get_propositions_go_length k 0 l h

/-- Facts extracted from a successful `parse_rows`: the proposition
count is the first row's length minus one (between 1 and 4), and every
recorded permutation is below 16 with its low `4 - k` bits clear. -/
theorem parse_rows_facts (rows : List (List Char)) (T : TruthTable)
    (h : TruthTable.parse_rows rows = .ok T) :
    1 ≤ T.propositions.length ∧ T.propositions.length ≤ 4
      ∧ ∀ pr ∈ T.values_and_results,
          pr.1 < 16 ∧ pr.1 % 2 ^ (4 - T.propositions.length) = 0 := by
  match rows, h with
  | row0 :: rest, h =>
    rw [TruthTable.parse_rows] at h
    split_ifs at h with h0
    obtain ⟨props, hprops, h2⟩ := except_bind_ok h
    obtain ⟨vals, hvals, h3⟩ := except_map_ok h2
    subst h3
    rw [rows_to_value_map] at hvals
    obtain ⟨u, hval, h4⟩ := except_bind_ok hvals
    obtain ⟨⟩ := u
    have hvf := validate_rows_facts row0 rest hval
    have hplen : props.length = row0.length - 1 := get_propositions_length _ _ hprops
    refine ⟨by simp [hplen]; omega, by simp [hplen]; omega, ?_⟩
    intro pr hpr
    simp only at hpr
    rcases rowsToValueMapAux_mem _ [] vals h4 pr hpr with hin | ⟨row, hrow, hdec⟩
    · simp at hin
    · have := decode_bound row pr.1 hdec
      rw [hvf.2.2 row hrow] at this
      simpa [hplen] using this

def canonicalIndex : PropositionIdentifier → Nat
  | .A => 0
  | .B => 1
  | .C => 2
  | .D => 3

/-- The conjunct letters of a permutation: the first `k` canonical
propositions whose mask bit is set. -/
def lettersOf (q k : Nat) : List PropositionIdentifier :=
  (canonicalPropositions.take k).filter (fun p => p.mask q)

theorem mem_lettersOf (k : Nat) (hk : k ≤ 4) (ℓ : PropositionIdentifier) (p : Nat) :
    ℓ ∈ lettersOf p k ↔ (canonicalIndex ℓ < k ∧ ℓ.mask p = true) := by
  interval_cases k <;> cases ℓ <;>
    simp [lettersOf, canonicalPropositions, canonicalIndex, List.mem_filter]

theorem mod_mask_lt (p k : Nat) (hp : p < 16) (hk : k ≤ 4) (h : p % 2 ^ (4 - k) = 0) :
    ∀ ℓ : PropositionIdentifier, ℓ.mask p = true → canonicalIndex ℓ < k := by
  interval_cases k <;> interval_cases p <;> revert h <;> decide

theorem mask_lt_mod (p k : Nat) (hp : p < 16) (hk : k ≤ 4)
    (h : ∀ ℓ : PropositionIdentifier, ℓ.mask p = true → canonicalIndex ℓ < k) :
    p % 2 ^ (4 - k) = 0 := by
  interval_cases k <;> interval_cases p <;> revert h <;> decide

theorem validate_contains_lt (t : PropositionTable) (hval : t.validate = true)
    (ℓ : PropositionIdentifier) (hc : t.containsKey ℓ = true) :
    canonicalIndex ℓ < t.count := by
  obtain ⟨a, b, c, d⟩ := t
  cases a <;> cases b <;> cases c <;> cases d <;>
    cases ℓ <;>
      simp_all [PropositionTable.validate, PropositionTable.count,
        PropositionTable.containsKey, PropositionTable.getEntry, canonicalIndex]

theorem gbp_mem (k : Nat) (h1 : 1 ≤ k) (h4 : k ≤ 4) (p : Nat) :
    p ∈ get_bit_permutations k ↔ (p < 16 ∧ p % 2 ^ (4 - k) = 0) := by
  interval_cases k
  · rw [show get_bit_permutations 1 = [0, 8] from by decide]
    simp
    omega
  · rw [show get_bit_permutations 2 = [0, 8, 4, 12] from by decide]
    simp
    omega
  · rw [show get_bit_permutations 3 = [0, 8, 4, 12, 2, 10, 6, 14] from by decide]
    simp
    omega
  · rw [show get_bit_permutations 4
        = [0, 8, 4, 12, 2, 10, 6, 14, 1, 9, 5, 13, 3, 11, 7, 15] from by decide]
    simp
    omega

theorem gbp_nodup (k : Nat) (h1 : 1 ≤ k) (h4 : k ≤ 4) :
    (get_bit_permutations k).Nodup := by
  interval_cases k <;> decide

theorem mem_sopStr_of_mem_word (qs : List (List PropositionIdentifier))
    (ps : List PropositionIdentifier) (hps : ps ∈ qs) (c : Char) (hc : c ∈ wordStr ps) :
    c ∈ sopStr qs := by
  match qs with
  | [] => simp at hps
  | [ps'] =>
    rcases List.mem_singleton.1 hps with rfl
    rw [sopStr_singleton]
    simp [hc]
  | ps' :: ps2 :: rest =>
    rw [sopStr_cons_cons]
    rcases List.mem_cons.1 hps with rfl | hps
    · simp [hc]
    · have := mem_sopStr_of_mem_word (ps2 :: rest) ps hps c hc
      simp [this]

theorem to_expression_str_eq_sopSpec (t : TruthTable) (hk : t.propositions.length ≤ 4) :
    t.to_expression_str = .ok t.sopSpec := by
  rw [TruthTable.to_expression_str, toExprStrAux_eq _ hk, TruthTable.sopSpec, joinSep_nil]
  intro piece hp
  simp only [List.mem_map] at hp
  obtain ⟨pr, _, hpc⟩ := hp
  simp [← hpc, conjSpec]

theorem conjSpec_eq_word (q k : Nat) :
    conjSpec q k = '(' :: (wordStr (lettersOf q k) ++ [ ')']) := by
  simp [conjSpec, wordStr, lettersOf]

theorem sopSpec_eq_sopStr (t : TruthTable) :
    t.sopSpec = sopStr ((t.values_and_results.filter (fun pr => pr.2)).map
      (fun pr => lettersOf pr.1 t.propositions.length)) := by
  rw [TruthTable.sopSpec, sopStr, List.map_map]
  have hfun : (fun pr : Nat × Bool => conjSpec pr.1 t.propositions.length)
      = ((fun ps => '(' :: (wordStr ps ++ [ ')']))
          ∘ fun pr : Nat × Bool => lettersOf pr.1 t.propositions.length) := by
    funext pr
    exact conjSpec_eq_word pr.1 _
  rw [hfun]

/-- C2 amended: the round trip preserves the true rows (and only those).
Whenever the full pipeline succeeds — `parse_rows` on literal rows,
`to_expression_str`, re-parsing the produced string with validation,
and rebuilding with `from_expression` — every permutation the original
table maps to true is mapped to true by the rebuilt table as well.  The
mapping as a whole is NOT preserved: the emitted conjunctions carry no
negated literals, so a false row whose set propositions contain those of
some true row is rebuilt as true (see the counterexample). -/
theorem c2_roundtrip_true_rows (rows : List (List Char)) (T : TruthTable)
    (sx : List Char) (e : Expression) (T2 : TruthTable)
    (h1 : TruthTable.parse_rows rows = .ok T)
    (h2 : T.to_expression_str = .ok sx)
    (h3 : Expression.parse sx true = .ok e)
    (h4 : TruthTable.from_expression e = .ok T2) :
    ∀ p : Nat, (p, true) ∈ T.values_and_results → (p, true) ∈ T2.values_and_results := by
  intro p hp
  obtain ⟨hk1, hk4, hkeys⟩ := parse_rows_facts rows T h1
  -- identify the produced string as the generated sum of products
  have hsx : sx = sopStr ((T.values_and_results.filter (fun pr => pr.2)).map
      (fun pr => lettersOf pr.1 T.propositions.length)) := by
    rw [to_expression_str_eq_sopSpec T hk4] at h2
    simp only [Except.ok.injEq] at h2
    rw [← h2, sopSpec_eq_sopStr]
  subst hsx
  set sx := sopStr ((T.values_and_results.filter (fun pr => pr.2)).map
      (fun pr => lettersOf pr.1 T.propositions.length)) with hsx
  obtain ⟨hwf, hprops, hvalid⟩ := parseFuel_wf _ sx true e h3
  have hval : (PropositionTable.fromExpressionStr sx).validate = true := hvalid rfl
  -- the conjunct of the true permutation p
  have hpfilter : (p, true) ∈ T.values_and_results.filter (fun pr => pr.2) := by
    simp [List.mem_filter, hp]
  have hpqs : lettersOf p T.propositions.length
      ∈ (T.values_and_results.filter (fun pr => pr.2)).map
          (fun pr => lettersOf pr.1 T.propositions.length) :=
    List.mem_map.2 ⟨(p, true), hpfilter, rfl⟩
  have hqsne : (T.values_and_results.filter (fun pr => pr.2)).map
      (fun pr => lettersOf pr.1 T.propositions.length) ≠ [] := by
    intro h0
    rw [h0] at hpqs
    simp at hpqs
  have h3' : parseFuel (2 * sx.length + 2) sx true = .ok e := h3
  rw [show 2 * sx.length + 2 = (2 * sx.length + 1) + 1 from rfl, parseFuel] at h3'
  split at h3'
  · simp at h3'
  · -- all conjuncts must be nonempty, or the loop errors out
    by_cases hallne : ∀ ps ∈ (T.values_and_results.filter (fun pr => pr.2)).map
        (fun pr => lettersOf pr.1 T.propositions.length), ps ≠ []
    case neg =>
      exfalso
      push_neg at hallne
      obtain ⟨ps, hpsmem, hpsnil⟩ := hallne
      subst hpsnil
      obtain ⟨err, herr⟩ := parseLoopFuel_sop_bad _ hpsmem (2 * sx.length + 1)
        (by rw [hsx])
      rw [herr] at h3'
      simp [Bind.bind, Except.bind] at h3'
    case pos =>
      rw [parseLoopFuel_sop _ hallne hqsne (2 * sx.length + 1)
        (by rw [hsx])] at h3'
      simp only [Bind.bind, Except.bind] at h3'
      split at h3'
      · simp at h3'
      · simp only [Except.ok.injEq] at h3'
        -- the rebuilt expression structure is now pinned
        have hprop_count : e.proposition_count
            = (PropositionTable.fromExpressionStr sx).count := by
          rw [Expression.proposition_count, hprops]
        -- the rebuilt table
        have hk2 := validate_count_range _ hval
        have hfold := fromExprAux_eq e hwf
          (get_bit_permutations e.proposition_count) []
        rw [TruthTable.from_expression] at h4
        obtain ⟨props2, hprops2, h5⟩ := except_bind_ok h4
        obtain ⟨vals2, hvals2, h6⟩ := except_bind_ok h5
        simp only [Except.ok.injEq] at h6
        rw [hfold] at hvals2
        simp only [Except.ok.injEq] at hvals2
        -- evaluation of the rebuilt expression at p is true
        have hp16 := hkeys (p, true) hp
        simp only at hp16
        have heval : e.evaluate_permutation p = some true := by
          rw [← h3']
          rw [eval_topExpr _ hallne hqsne _ p]
          congr 1
          rw [List.any_eq_true]
          refine ⟨lettersOf p T.propositions.length, hpqs, ?_⟩
          rw [List.all_eq_true]
          intro ℓ hℓ
          exact (List.mem_filter.1 hℓ).2
        -- p is among the enumerated permutations of the rebuilt table
        have hsubk : ∀ ℓ : PropositionIdentifier, ℓ.mask p = true →
            canonicalIndex ℓ < (PropositionTable.fromExpressionStr sx).count := by
          intro ℓ hℓ
          have hidx : canonicalIndex ℓ < T.propositions.length :=
            mod_mask_lt p T.propositions.length hp16.1 hk4 hp16.2 ℓ hℓ
          have hmem : ℓ ∈ lettersOf p T.propositions.length :=
            (mem_lettersOf T.propositions.length hk4 ℓ p).2 ⟨hidx, hℓ⟩
          have hchar : ℓ.to_char ∈ sx := by
            rw [hsx]
            exact mem_sopStr_of_mem_word _ _ hpqs _ (wordStr_mem_to_char _ ℓ hmem)
          have hck : (PropositionTable.fromExpressionStr sx).containsKey ℓ = true :=
            (containsKey_fromExpressionStr _ ℓ).2 ⟨ℓ.to_char, hchar, from_char_to_char ℓ⟩
          exact validate_contains_lt _ hval ℓ hck
        have hpmod2 : p % 2 ^ (4 - (PropositionTable.fromExpressionStr sx).count) = 0 :=
          mask_lt_mod p _ hp16.1 hk2.2 hsubk
        have hpgbp : p ∈ get_bit_permutations e.proposition_count := by
          rw [hprop_count]
          exact (gbp_mem _ hk2.1 hk2.2 p).2 ⟨hp16.1, hpmod2⟩
        have hndp : (get_bit_permutations e.proposition_count).Nodup := by
          rw [hprop_count]
          exact gbp_nodup _ hk2.1 hk2.2
        have hmem2 := mem_fold_btInsert
          (fun q => (e.evaluate_permutation q).getD false) p _ hpgbp hndp []
        rw [show (e.evaluate_permutation p).getD false = true from by rw [heval]; rfl]
          at hmem2
        rw [← h6]
        simp only
        rw [← hvals2]
        exact hmem2

/-- Witness for the amended C2 at a concrete input: the one-proposition
table from rows `"00, 11"` round-trips through `"(A)"`, and the true row
at permutation `0b1000` is preserved. -/
theorem c2_roundtrip_true_rows_witness :
    (8, true) ∈ (TruthTable.mk [PropositionIdentifier.A]
      [(0, false), (8, true)]).values_and_results :=
  c2_roundtrip_true_rows [['0', '0'], ['1', '1']]
    (TruthTable.mk [PropositionIdentifier.A] [(0, false), (8, true)])
    ("(A)".toList)
    (Expression.mk
      (.cons
        (.mk (.subexpression (Expression.mk
          (.cons (.mk (.proposition .A) false) .nil) []
          ⟨some none, none, none, none⟩)) false)
        .nil)
      [] ⟨some none, none, none, none⟩)
    (TruthTable.mk [PropositionIdentifier.A] [(0, false), (8, true)])
    (by decide) (by decide) rfl rfl 8 (by decide)
